import Mathlib

/-!
# Inventory management system: record codec, inventory store and persistence

A shallow embedding of `src/ims.cpp`.

* `std::string` is a list of characters (`Str`); the code only ever compares
  characters with `,`, `"` and the newline, so the character set is immaterial.
* `int` is `Int`; where the 32-bit range matters (`stoi`) it is checked explicitly.
* `double` is a type parameter `D`; the two library conversions the code calls on it
  (`std::to_string(double)` and `std::stod`) are the fields of `NumLib D`.
* `vector<unique_ptr<Product>>` is a `List (Product D)` in insertion order.
* the file system is a `Disk`: what each file name reads as, and whether it can be
  opened for writing.
-/

namespace IMS

/-- A `std::string`. -/
abbrev Str := List Char

/-- The double quote character. -/
def dq : Char := Char.ofNat 34

/-- The line feed character. -/
def nl : Char := Char.ofNat 10

/-! ## Record codec -/

/-- One iteration of the loop of `Product::escapeCsv` (ims.cpp 57-60). -/
def escapeStep (escaped : Str) (c : Char) : Str :=
  if c = dq then escaped ++ [dq, dq] else escaped ++ [c]

/-- Method `Product::escapeCsv` (ims.cpp 54-65). -/
def escapeCsv (value : Str) : Str :=
  if ',' ∈ value ∨ dq ∈ value ∨ nl ∈ value then
    value.foldl escapeStep [dq] ++ [dq]
  else value

/-- The loop of `InventoryManager::parseCsvLine` (ims.cpp 236-253): the characters still to
read, `inQuotes`, `currentToken` and `tokens`; the last token is pushed when the line ends
(ims.cpp 255). -/
def parseCsvLoop : Str → Bool → Str → List Str → List Str
  | [], _, currentToken, tokens => tokens ++ [currentToken]
  | [c], inQuotes, currentToken, tokens =>
    -- the last character: `i + 1 < line.length()` is false
    if c = dq then parseCsvLoop [] (!inQuotes) currentToken tokens
    else if c = ',' ∧ inQuotes = false then parseCsvLoop [] inQuotes [] (tokens ++ [currentToken])
    else parseCsvLoop [] inQuotes (currentToken ++ [c]) tokens
  | c :: d :: rest, inQuotes, currentToken, tokens =>
    if c = dq then
      if inQuotes = true ∧ d = dq then parseCsvLoop rest inQuotes (currentToken ++ [dq]) tokens
      else parseCsvLoop (d :: rest) (!inQuotes) currentToken tokens
    else if c = ',' ∧ inQuotes = false then
      parseCsvLoop (d :: rest) inQuotes [] (tokens ++ [currentToken])
    else parseCsvLoop (d :: rest) inQuotes (currentToken ++ [c]) tokens

/-- Method `InventoryManager::parseCsvLine` (ims.cpp 229-257). -/
def parseCsvLine (line : Str) : List Str :=
  parseCsvLoop line false [] []

/-- The loop of `InventoryManager::joinCsvRow` (ims.cpp 262-265): the fields from index `i`
on and the `result` so far. -/
def joinCsvLoop : List Str → Nat → Str → Str
  | [], _, result => result
  | field :: fields, i, result =>
    joinCsvLoop fields (i + 1) ((if i > 0 then result ++ [','] else result) ++ field)

/-- Method `InventoryManager::joinCsvRow` (ims.cpp 260-267). -/
def joinCsvRow (row : List Str) : Str :=
  joinCsvLoop row 0 []

/-! ## Numeric text conversions -/

/-- Library function `std::to_string(int)`: the decimal digits, with a minus sign for a negative value. -/
def to_string (n : Int) : Str :=
  if n < 0 then '-' :: Nat.toDigits 10 n.natAbs else Nat.toDigits 10 n.natAbs

/-- Library function `isspace` in the C locale: space, `\t`, `\n`, `\v`, `\f`, `\r`. -/
def isspace (c : Char) : Bool :=
  c = ' ' || c = Char.ofNat 9 || c = nl || c = Char.ofNat 11 || c = Char.ofNat 12
    || c = Char.ofNat 13

/-- The number written by a string of decimal digits. -/
def digitsValue (ds : Str) : Nat :=
  ds.foldl (fun acc c => acc * 10 + (c.toNat - 48)) 0

/-- Library function `std::stoi`: leading white space is skipped, then an optional sign and the longest run of
decimal digits are read; what follows is ignored. `none` stands for the two exceptions, both
derived from `std::exception`: `invalid_argument` (no digit) and `out_of_range` (the value
is not an `int`). -/
def stoi (s : Str) : Option Int :=
  let body := s.dropWhile isspace
  let unsigned := if body.head? = some '-' ∨ body.head? = some '+' then body.tail else body
  let ds := unsigned.takeWhile Char.isDigit
  if ds = [] then none
  else
    let value : Int := if body.head? = some '-' then -(digitsValue ds : Int) else digitsValue ds
    if -2147483648 ≤ value ∧ value ≤ 2147483647 then some value else none

/-- The two library conversions the code applies to a `double`: `std::to_string(double)`
(ims.cpp 96, 144, 195) and `std::stod` (ims.cpp 330), `none` standing for its exceptions. -/
structure NumLib (D : Type) where
  /-- The text written for a price. -/
  to_string : D → Str
  /-- The price read from a text, if any. -/
  stod : Str → Option D

/-! ## Product variants -/

/-- The fields the three subclasses add to `Product` (ims.cpp 71-72, 119-120, 167-169). -/
inductive Variant where
  | electronic (brand : Str) (warrantyMonths : Int)
  | food (expiryDate : Str) (isOrganic : Bool)
  | medicine (manufacturer : Str) (expiryDate : Str) (prescriptionRequired : Bool)
  deriving DecidableEq

/-- A product: the fields of the base class (ims.cpp 15-19) and those of its subclass. -/
structure Product (D : Type) where
  productId : Str
  name : Str
  price : D
  quantity : Int
  category : Str
  variant : Variant
  deriving DecidableEq

/-- The constructor of `Electronic` (ims.cpp 75-77). -/
def Electronic {D : Type} (id n : Str) (p : D) (q : Int) (b : Str) (warranty : Int) : Product D :=
  ⟨id, n, p, q, "Electronics".toList, .electronic b warranty⟩

/-- The constructor of `Food` (ims.cpp 123-125). -/
def Food {D : Type} (id n : Str) (p : D) (q : Int) (expiry : Str) (organic : Bool) : Product D :=
  ⟨id, n, p, q, "Food".toList, .food expiry organic⟩

/-- The constructor of `Medicine` (ims.cpp 172-175). -/
def Medicine {D : Type} (id n : Str) (p : D) (q : Int) (mfg expiry : Str) (prescription : Bool) :
    Product D :=
  ⟨id, n, p, q, "Medicine".toList, .medicine mfg expiry prescription⟩

/-- The setters `setName`, `setPrice`, `setQuantity`, `setCategory` (ims.cpp 44-47). -/
def Product.setName {D : Type} (p : Product D) (n : Str) : Product D := { p with name := n }

/-- See `Product.setName`. -/
def Product.setPrice {D : Type} (p : Product D) (x : D) : Product D := { p with price := x }

/-- See `Product.setName`. -/
def Product.setQuantity {D : Type} (p : Product D) (q : Int) : Product D :=
  { p with quantity := q }

/-- See `Product.setName`. -/
def Product.setCategory {D : Type} (p : Product D) (cat : Str) : Product D :=
  { p with category := cat }

/-- The three overrides of `toCsvRow` (ims.cpp 92-101, 140-149, 191-201). -/
def toCsvRow {D : Type} (L : NumLib D) (p : Product D) : List Str :=
  match p.variant with
  | .electronic brand warrantyMonths =>
    [p.productId, escapeCsv p.name, L.to_string p.price, to_string p.quantity,
      escapeCsv brand, to_string warrantyMonths]
  | .food expiryDate isOrganic =>
    [p.productId, escapeCsv p.name, L.to_string p.price, to_string p.quantity,
      escapeCsv expiryDate, if isOrganic then ['1'] else ['0']]
  | .medicine manufacturer expiryDate prescriptionRequired =>
    [p.productId, escapeCsv p.name, L.to_string p.price, to_string p.quantity,
      escapeCsv manufacturer, escapeCsv expiryDate, if prescriptionRequired then ['1'] else ['0']]

/-- The three overrides of `getCsvHeader` (ims.cpp 103-105, 151-153, 203-205). -/
def getCsvHeader {D : Type} (p : Product D) : Str :=
  match p.variant with
  | .electronic _ _ => "product_id,name,price,quantity,brand,warranty_months".toList
  | .food _ _ => "product_id,name,price,quantity,expiry_date,is_organic".toList
  | .medicine _ _ _ =>
    "product_id,name,price,quantity,manufacturer,expiry_date,prescription_required".toList

/-- The category string the constructor of each subclass passes to `Product`
(ims.cpp 77, 125, 174). -/
def Variant.category : Variant → Str
  | .electronic _ _ => "Electronics".toList
  | .food _ _ => "Food".toList
  | .medicine _ _ _ => "Medicine".toList

/-- The values of a 32-bit `int`. -/
def isInt32 (n : Int) : Prop := -2147483648 ≤ n ∧ n ≤ 2147483647

/-- The `int` fields of a product hold 32-bit values. -/
def Product.IntFields {D : Type} (p : Product D) : Prop :=
  isInt32 p.quantity ∧
    match p.variant with
    | .electronic _ warrantyMonths => isInt32 warrantyMonths
    | _ => True

/-! ## Inventory store -/

/-- The member `inventory` (ims.cpp 221), in insertion order. -/
abbrev Inventory (D : Type) := List (Product D)

/-- Method `InventoryManager::getProductsByCategory` (ims.cpp 270-278). -/
def getProductsByCategory {D : Type} (inventory : Inventory D) (category : Str) :
    List (Product D) :=
  inventory.foldl
    (fun categoryProducts product =>
      if product.category = category then categoryProducts ++ [product] else categoryProducts)
    []

/-- Method `InventoryManager::addProduct` (ims.cpp 369-380): the scan returns at the first product
with the new product's id; otherwise the product is pushed at the back. -/
def addProduct {D : Type} (inventory : Inventory D) (product : Product D) : Inventory D :=
  if inventory.any (fun p => decide (p.productId = product.productId)) then inventory
  else inventory ++ [product]

/-- Method `InventoryManager::searchById` (ims.cpp 383-389); `none` is the null pointer. -/
def searchById {D : Type} (inventory : Inventory D) (id : Str) : Option (Product D) :=
  inventory.find? (fun p => decide (p.productId = id))

/-- Method `InventoryManager::removeProduct` (ims.cpp 598-610): `it` is the position `find_if`
returns, the length standing for `inventory.end()`. -/
def removeProduct {D : Type} (inventory : Inventory D) (id : Str) : Inventory D :=
  let it := inventory.findIdx (fun p => decide (p.productId = id))
  if it ≠ inventory.length then inventory.eraseIdx it else inventory

/-- What the user answers to the menu of `updateProduct` (ims.cpp 406-446). -/
inductive Update (D : Type) where
  | name (newName : Str)
  | price (newPrice : D)
  | quantity (newQuantity : Int)
  | category (newCategory : Str)
  | invalid

/-- The setter `updateProduct` calls for a menu choice (ims.cpp 412-446). -/
def Update.apply {D : Type} (u : Update D) (product : Product D) : Product D :=
  match u with
  | .name newName => product.setName newName
  | .price newPrice => product.setPrice newPrice
  | .quantity newQuantity => product.setQuantity newQuantity
  | .category newCategory => product.setCategory newCategory
  | .invalid => product

/-- The product `searchById` points to is changed in place. -/
def modifyFirst {D : Type} (f : Product D → Product D) (id : Str) : Inventory D → Inventory D
  | [] => []
  | p :: ps => if p.productId = id then f p :: ps else p :: modifyFirst f id ps

/-- Method `InventoryManager::updateProduct` (ims.cpp 392-448). -/
def updateProduct {D : Type} (inventory : Inventory D) (id : Str) (u : Update D) : Inventory D :=
  match searchById inventory id with
  | none => inventory
  | some _ => modifyFirst u.apply id inventory

/-- The constant `LOW_STOCK_THRESHOLD` (ims.cpp 508). -/
def LOW_STOCK_THRESHOLD : Int := 10

/-- What `generateStockReport` prints about low stock: the alert lines, in the order they
are printed, and the figures `Total Products` and `Low Stock Items`. -/
structure StockReport (D : Type) where
  lowStock : List (Product D)
  totalProducts : Nat
  lowStockItems : Int

/-- One iteration of the loop over the inventory in `generateStockReport` (ims.cpp 537-548),
without the two running totals, which no branch depends on. -/
def reportStep {D : Type} (r : StockReport D) (product : Product D) : StockReport D :=
  if product.quantity < LOW_STOCK_THRESHOLD then
    { r with lowStock := r.lowStock ++ [product], lowStockItems := r.lowStockItems + 1 }
  else r

/-- Method `InventoryManager::generateStockReport` (ims.cpp 499-561); `none` when the inventory is
empty and only `No products in inventory!` is printed. -/
def generateStockReport {D : Type} (inventory : Inventory D) : Option (StockReport D) :=
  if inventory.isEmpty then none
  else some (inventory.foldl reportStep ⟨[], inventory.length, 0⟩)

/-- Library function `tolower` in the C locale: the letters `A` to `Z` are mapped to `a` to
`z`, every other character is left as it is. -/
def tolower (c : Char) : Char :=
  if 65 ≤ c.toNat ∧ c.toNat ≤ 90 then Char.ofNat (c.toNat + 32) else c

/-- The search of `std::string::find` from the position `pos` on: the first position at
which `needle` starts in the text, `none` standing for `npos`. -/
def findFrom : Str → Str → Nat → Option Nat
  | [], needle, pos => if needle = [] then some pos else none
  | c :: rest, needle, pos =>
    if needle.isPrefixOf (c :: rest) then some pos else findFrom rest needle (pos + 1)

/-- Library function `std::string::find(str)`. -/
def find (text needle : Str) : Option Nat :=
  findFrom text needle 0

/-- Method `InventoryManager::searchByName` (ims.cpp 564-578): the products it collects in
`results` and then displays. -/
def searchByName {D : Type} (inventory : Inventory D) (searchTerm : Str) : List (Product D) :=
  inventory.foldl
    (fun results product =>
      if find (product.name.map tolower) (searchTerm.map tolower) ≠ none then
        results ++ [product]
      else results)
    []

/-- Method `InventoryManager::getAvailableCategories` (ims.cpp 664-673). -/
def getAvailableCategories {D : Type} (inventory : Inventory D) : List Str :=
  inventory.foldl
    (fun categories product =>
      if product.category ∉ categories then categories ++ [product.category] else categories)
    []

/-- One call on the store: `addProduct`, `removeProduct`, or `updateProduct` with the
user's answer. -/
inductive Op (D : Type) where
  | add (product : Product D)
  | remove (id : Str)
  | update (id : Str) (u : Update D)

/-- The store after one call. -/
def Op.run {D : Type} (inventory : Inventory D) : Op D → Inventory D
  | .add product => addProduct inventory product
  | .remove id => removeProduct inventory id
  | .update id u => updateProduct inventory id u

/-- The store after a sequence of calls, starting from the empty store. -/
def runOps {D : Type} (ops : List (Op D)) : Inventory D :=
  ops.foldl Op.run []

/-! ## Persistence -/

/-- The files: what a file reads as (`none` when it cannot be opened for reading), and
whether it can be opened for writing. -/
structure Disk where
  content : Str → Option Str
  writable : Str → Bool

/-- The lines `getline` returns one after the other (ims.cpp 315): a line ends at a newline
or at the end of the file, and nothing is returned once the file is exhausted. -/
def getlines : Str → Str → List Str
  | [], line => if line = [] then [] else [line]
  | c :: rest, line => if c = nl then line :: getlines rest [] else getlines rest (line ++ [c])

/-- What the body of the loop of `loadCategoryFromFile` does with one data line. -/
inductive RowOutcome (D : Type) where
  /-- A product is pushed at the back of the inventory. -/
  | loaded (product : Product D)
  /-- Nothing is done: too few fields. -/
  | skipped
  /-- An exception of `stod` or `stoi` is caught and reported (ims.cpp 349-352). -/
  | caught
  /-- A token is read past the end of `tokens`. -/
  | fault
  deriving DecidableEq

/-- The body of the loop of `loadCategoryFromFile` once the line is split (ims.cpp 325-352).
A token is read with `tokens[i]?`, so that a read past the end shows as `fault`. -/
def decodeTokens {D : Type} (L : NumLib D) (category : Str) (tokens : List Str) : RowOutcome D :=
  if tokens.length < 4 then .skipped
  else
    match tokens[0]?, tokens[1]?, tokens[2]?, tokens[3]? with
    | some id, some name, some t2, some t3 =>
      match L.stod t2 with
      | none => .caught
      | some price =>
        match stoi t3 with
        | none => .caught
        | some quantity =>
          if category = "Electronics".toList ∧ tokens.length ≥ 6 then
            match tokens[4]?, tokens[5]? with
            | some brand, some t5 =>
              match stoi t5 with
              | none => .caught
              | some warranty => .loaded (Electronic id name price quantity brand warranty)
            | _, _ => .fault
          else if category = "Food".toList ∧ tokens.length ≥ 6 then
            match tokens[4]?, tokens[5]? with
            | some expiry, some t5 =>
              .loaded (Food id name price quantity expiry (decide (t5 = ['1'])))
            | _, _ => .fault
          else if category = "Medicine".toList ∧ tokens.length ≥ 7 then
            match tokens[4]?, tokens[5]?, tokens[6]? with
            | some manufacturer, some expiry, some t6 =>
              .loaded (Medicine id name price quantity manufacturer expiry (decide (t6 = ['1'])))
            | _, _, _ => .fault
          else .skipped
    | _, _, _, _ => .fault

/-- The decoding of one data line in `loadCategoryFromFile` (ims.cpp 324-352). -/
def decodeRow {D : Type} (L : NumLib D) (category line : Str) : RowOutcome D :=
  decodeTokens L category (parseCsvLine line)

/-- The loop of `loadCategoryFromFile` over the lines of the file (ims.cpp 315-353): empty
lines are passed over, the first other line is the header. `none` when a line faults. -/
def loadLines {D : Type} (L : NumLib D) (category : Str) :
    List Str → Bool → Inventory D → Option (Inventory D)
  | [], _, inventory => some inventory
  | line :: rest, isFirstLine, inventory =>
    if line = [] then loadLines L category rest isFirstLine inventory
    else if isFirstLine then loadLines L category rest false inventory
    else
      match decodeRow L category line with
      | .loaded product => loadLines L category rest false (inventory ++ [product])
      | .skipped => loadLines L category rest false inventory
      | .caught => loadLines L category rest false inventory
      | .fault => none

/-- Method `InventoryManager::loadCategoryFromFile` (ims.cpp 306-355). -/
def loadCategoryFromFile {D : Type} (L : NumLib D) (disk : Disk) (filename category : Str)
    (inventory : Inventory D) : Option (Inventory D) :=
  match disk.content filename with
  | none => some inventory
  | some text => loadLines L category (getlines text []) true inventory

/-- Method `InventoryManager::loadFromFiles` (ims.cpp 626-634). -/
def loadFromFiles {D : Type} (L : NumLib D) (disk : Disk) : Option (Inventory D) :=
  (loadCategoryFromFile L disk "electronics_inventory.csv".toList "Electronics".toList []).bind
    fun inv1 =>
  (loadCategoryFromFile L disk "food_inventory.csv".toList "Food".toList inv1).bind
    fun inv2 =>
  loadCategoryFromFile L disk "medicine_inventory.csv".toList "Medicine".toList inv2

/-- What `saveCategoryToFile` writes (ims.cpp 295-301): the header of the first product,
then one line per product. -/
def fileText {D : Type} (L : NumLib D) (first : Product D) (categoryProducts : List (Product D)) :
    Str :=
  categoryProducts.foldl (fun text product => text ++ joinCsvRow (toCsvRow L product) ++ [nl])
    (getCsvHeader first ++ [nl])

/-- Method `InventoryManager::saveCategoryToFile` (ims.cpp 281-303). -/
def saveCategoryToFile {D : Type} (L : NumLib D) (inventory : Inventory D)
    (category filename : Str) (disk : Disk) : Disk :=
  match getProductsByCategory inventory category with
  | [] => disk
  | first :: others =>
    if disk.writable filename then
      { disk with
        content := fun f =>
          if f = filename then some (fileText L first (first :: others)) else disk.content f }
    else disk

/-- Method `InventoryManager::saveToFiles` (ims.cpp 613-616). -/
def saveToFiles {D : Type} (L : NumLib D) (inventory : Inventory D) (disk : Disk) : Disk :=
  saveCategoryToFile L inventory "Medicine".toList "medicine_inventory.csv".toList
    (saveCategoryToFile L inventory "Food".toList "food_inventory.csv".toList
      (saveCategoryToFile L inventory "Electronics".toList "electronics_inventory.csv".toList
        disk))

/-- The lines of a file that are decoded: the non-empty lines after the first non-empty
one, which is the header. -/
def dataLines : List Str → Bool → List Str
  | [], _ => []
  | line :: rest, isFirstLine =>
    if line = [] then dataLines rest isFirstLine
    else if isFirstLine then dataLines rest false
    else line :: dataLines rest false

/-- The products decoded from a list of data lines, in order. -/
def productsOf {D : Type} (L : NumLib D) (category : Str) : List Str → List (Product D)
  | [] => []
  | line :: rest =>
    match decodeRow L category line with
    | .loaded product => product :: productsOf L category rest
    | _ => productsOf L category rest

/-- The three categories, each with the file `saveToFiles` and `loadFromFiles` use for it
(ims.cpp 614-616, 629-631) and the header its subclass writes (ims.cpp 104, 152, 204). -/
def categoryFiles : List (Str × Str × Str) :=
  [("Electronics".toList, "electronics_inventory.csv".toList,
      "product_id,name,price,quantity,brand,warranty_months".toList),
    ("Food".toList, "food_inventory.csv".toList,
      "product_id,name,price,quantity,expiry_date,is_organic".toList),
    ("Medicine".toList, "medicine_inventory.csv".toList,
      "product_id,name,price,quantity,manufacturer,expiry_date,prescription_required".toList)]

/-- The data lines `saveCategoryToFile` writes: one per product, each ended by a newline. -/
def rowsText {D : Type} (L : NumLib D) : List (Product D) → Str
  | [] => []
  | product :: rest => joinCsvRow (toCsvRow L product) ++ nl :: rowsText L rest

/-- The text fields of the subclass hold no newline. -/
def Variant.NoNewline : Variant → Prop
  | .electronic brand _ => nl ∉ brand
  | .food expiryDate _ => nl ∉ expiryDate
  | .medicine manufacturer expiryDate _ => nl ∉ manufacturer ∧ nl ∉ expiryDate

instance (v : Variant) : Decidable v.NoNewline := by
  cases v <;> unfold Variant.NoNewline <;> infer_instance

/-- The product carries the category of its subclass, its id holds no comma, double quote or
newline, and its other text fields hold no newline. -/
def Product.CleanText {D : Type} (p : Product D) : Prop :=
  p.category = p.variant.category ∧ (∀ c ∈ p.productId, c ≠ ',' ∧ c ≠ dq ∧ c ≠ nl) ∧
    nl ∉ p.name ∧ p.variant.NoNewline

/-- What the types and the C library give for a product: its `int` fields are 32-bit values,
the text written for its price holds no comma, double quote or newline, and `stod` accepts
that text. -/
def Product.LibraryOk {D : Type} (L : NumLib D) (p : Product D) : Prop :=
  p.IntFields ∧ (∀ c ∈ L.to_string p.price, c ≠ ',' ∧ c ≠ dq ∧ c ≠ nl) ∧
    (L.stod (L.to_string p.price)).isSome = true

/-- The call adds a product that carries the category of its subclass, as the constructors
build it, or is not a category update. -/
def Op.KeepsCategory {D : Type} : Op D → Prop
  | .add product => product.category = product.variant.category
  | .remove _ => True
  | .update _ u => ∀ newCategory, u ≠ .category newCategory

/-- The position of the first occurrence of `a` in a list of strings, the length of the list
when there is none. -/
def firstIndex (a : Str) : List Str → Nat
  | [] => 0
  | b :: l => if b = a then 0 else firstIndex a l + 1

/-- The products `loadCategoryFromFile` decodes from a file, in order; none when the file
cannot be opened. -/
def fileProducts {D : Type} (L : NumLib D) (disk : Disk) (filename category : Str) :
    List (Product D) :=
  match disk.content filename with
  | none => []
  | some text => productsOf L category (dataLines (getlines text []) true)

/-! ## A decimal instance of the numeric conversions

Prices counted in millionths: `std::to_string(double)` prints six decimals, so this is what
a price looks like once written. Used to evaluate the definitions on concrete inventories. -/

/-- Six decimals of a number below one million, zero-padded. -/
def pad6 (n : Nat) : Str :=
  List.replicate (6 - (Nat.toDigits 10 n).length) '0' ++ Nat.toDigits 10 n

/-- The format `%f`: sign, integer part, point, six decimals. -/
def microToString (x : Int) : Str :=
  (if x < 0 then ['-'] else []) ++ Nat.toDigits 10 (x.natAbs / 1000000) ++ ['.']
    ++ pad6 (x.natAbs % 1000000)

/-- Reading a decimal number: white space, sign, digits, and digits after a point (six are
kept); `none` when there is no digit. -/
def microStod (s : Str) : Option Int :=
  let body := s.dropWhile isspace
  let unsigned := if body.head? = some '-' ∨ body.head? = some '+' then body.tail else body
  let ip := unsigned.takeWhile Char.isDigit
  let fp :=
    match unsigned.dropWhile Char.isDigit with
    | '.' :: r => r.takeWhile Char.isDigit
    | _ => []
  if ip = [] ∧ fp = [] then none
  else
    let value : Int := digitsValue ip * 1000000 + digitsValue ((fp ++ List.replicate 6 '0').take 6)
    some (if body.head? = some '-' then -value else value)

/-- Prices in millionths with their decimal text. -/
def Micro : NumLib Int := ⟨microToString, microStod⟩

/-- A disk with no file, on which every file can be created. -/
def emptyDisk : Disk := ⟨fun _ => none, fun _ => true⟩

/-- A disk on which every file reads as `text`. -/
def diskWith (text : Str) : Disk := ⟨fun _ => some text, fun _ => true⟩

/-- An Electronics file, up to the end of its one well-formed row. -/
def sampleGoodText : Str :=
  "product_id,name,price,quantity,brand,warranty_months\nE1,Phone,599.990000,5,Acme,12".toList

/-- A row whose price field is not a number. -/
def sampleBadRow : Str := "E2,Tablet,abc,3,Acme,6".toList

/-- A disk whose Electronics file holds two rows with id `E1` and whose Food file holds a
third; there is no Medicine file. -/
def duplicateDisk : Disk :=
  ⟨fun f =>
    if f = "electronics_inventory.csv".toList then
      some ("product_id,name,price,quantity,brand,warranty_months\n".toList
        ++ "E1,Phone,599.990000,5,Acme,12\nE1,Tablet,99.500000,3,Acme,6\n".toList)
    else if f = "food_inventory.csv".toList then
      some ("product_id,name,price,quantity,expiry_date,is_organic\n".toList
        ++ "E1,Milk,1.250000,20,01/01/2030,1\n".toList)
    else none,
  fun _ => true⟩

/-- A disk with no file, on which no file can be opened for writing. -/
def lockedDisk : Disk := ⟨fun _ => none, fun _ => false⟩

/-- A store that mixes the three categories: Food, Electronics, Medicine, Electronics. -/
def mixedStore : Inventory Int :=
  [Food "F1".toList "Milk, whole".toList 1250000 20 "01/01/2030".toList true,
    Electronic "E1".toList "Phone".toList 599990000 5 "Acme".toList 12,
    Medicine "M1".toList "Pill".toList 4000000 (-3) "Lab".toList "03/03/2028".toList false,
    Electronic "E2".toList "Tablet".toList 99500000 3 "Acme".toList 6]

/-- Two characters are the same letter up to case: they are equal, or one is a capital
letter `A` to `Z` and the other is the small letter of it, 32 code points further. Any other
pair of characters, accented letters included, is the same only when equal. -/
def sameLetter (c d : Char) : Prop :=
  c = d ∨ (65 ≤ c.toNat ∧ c.toNat ≤ 90 ∧ d.toNat = c.toNat + 32) ∨
    (65 ≤ d.toNat ∧ d.toNat ≤ 90 ∧ c.toNat = d.toNat + 32)

/-- A store to search by name: `iPhone 15`, `Whole MILK` and `USB-C Cable`. -/
def namedStore : Inventory Int :=
  [Electronic "E1".toList "iPhone 15".toList 599990000 5 "Acme".toList 12,
    Food "F1".toList "Whole MILK".toList 1250000 20 "01/01/2030".toList true,
    Electronic "E2".toList "USB-C Cable".toList 9990000 40 "Acme".toList 6]

/-! ### Facts about the codec -/

/-- The body of an escaped field: every double quote doubled. -/
def doubled : Str → Str
  | [] => []
  | c :: cs => if c = dq then dq :: dq :: doubled cs else c :: doubled cs

/-- What `joinCsvRow` appends after the first field. -/
def tailJoin : List Str → Str
  | [] => []
  | field :: fields => ',' :: (field ++ tailJoin fields)

/-- The text `e` is read back by `parseCsvLine` as the field `f`, wherever it stands in a row. -/
def Encodes (e f : Str) : Prop :=
  ∀ (tail cur : Str) (toks : List Str), (tail = [] ∨ ∃ t, tail = ',' :: t) →
    parseCsvLoop (e ++ tail) false cur toks = parseCsvLoop tail false (cur ++ f) toks

theorem foldl_escapeStep (value acc : Str) :
    value.foldl escapeStep acc = acc ++ doubled value := by
  induction value generalizing acc with
  | nil => simp [doubled]
  | cons c cs ih =>
    by_cases h : c = dq <;> simp [List.foldl_cons, escapeStep, doubled, h, ih]

theorem escapeCsv_special (value : Str) (h : ',' ∈ value ∨ dq ∈ value ∨ nl ∈ value) :
    escapeCsv value = dq :: (doubled value ++ [dq]) := by
  simp [escapeCsv, h, foldl_escapeStep]

theorem escapeCsv_plain (value : Str) (h : ¬ (',' ∈ value ∨ dq ∈ value ∨ nl ∈ value)) :
    escapeCsv value = value := by
  simp only [escapeCsv, if_neg h]

theorem parse_cons_other (c : Char) (rest : Str) (q : Bool) (cur : Str) (toks : List Str)
    (h : c ≠ dq) :
    parseCsvLoop (c :: rest) q cur toks =
      if c = ',' ∧ q = false then parseCsvLoop rest q [] (toks ++ [cur])
      else parseCsvLoop rest q (cur ++ [c]) toks := by
  cases rest <;> simp [parseCsvLoop, h]

theorem parse_dq_dq (rest cur : Str) (toks : List Str) :
    parseCsvLoop (dq :: dq :: rest) true cur toks = parseCsvLoop rest true (cur ++ [dq]) toks := by
  simp [parseCsvLoop]

theorem parse_dq_toggle (rest : Str) (q : Bool) (cur : Str) (toks : List Str)
    (h : q = false ∨ rest.head? ≠ some dq) :
    parseCsvLoop (dq :: rest) q cur toks = parseCsvLoop rest (!q) cur toks := by
  cases rest with
  | nil => simp [parseCsvLoop]
  | cons d r =>
    rcases h with h | h
    · simp [parseCsvLoop, h]
    · have hd : d ≠ dq := by simpa using h
      simp [parseCsvLoop, hd]

theorem parse_plain (f : Str) (q : Bool) (tail cur : Str) (toks : List Str)
    (hq : ∀ c ∈ f, c ≠ dq) (hc : q = false → ∀ c ∈ f, c ≠ ',') :
    parseCsvLoop (f ++ tail) q cur toks = parseCsvLoop tail q (cur ++ f) toks := by
  induction f generalizing cur with
  | nil => simp
  | cons c cs ih =>
    have h1 : c ≠ dq := hq c (by simp)
    have h2 : ¬ (c = ',' ∧ q = false) := fun h => hc h.2 c (by simp) h.1
    rw [List.cons_append, parse_cons_other _ _ _ _ _ h1, if_neg h2,
      ih _ (fun d hd => hq d (by simp [hd])) (fun hq0 d hd => hc hq0 d (by simp [hd]))]
    simp

theorem parse_quoted_body (f tail cur : Str) (toks : List Str) (ht : tail.head? ≠ some dq) :
    parseCsvLoop (doubled f ++ dq :: tail) true cur toks =
      parseCsvLoop tail false (cur ++ f) toks := by
  induction f generalizing cur with
  | nil => simp [doubled, parse_dq_toggle _ _ _ _ (Or.inr ht)]
  | cons c cs ih =>
    by_cases h : c = dq
    · subst h
      simp [doubled, parse_dq_dq, ih]
    · simp [doubled, h, parse_cons_other _ _ _ _ _ h, ih]

theorem escapeCsv_encodes (f : Str) : Encodes (escapeCsv f) f := by
  intro tail cur toks ht
  have hhead : tail.head? ≠ some dq := by
    rcases ht with rfl | ⟨t, rfl⟩
    · simp
    · simp only [List.head?_cons, ne_eq, Option.some.injEq]; decide
  by_cases h : ',' ∈ f ∨ dq ∈ f ∨ nl ∈ f
  · rw [escapeCsv_special f h]
    have : (dq :: (doubled f ++ [dq])) ++ tail = dq :: (doubled f ++ dq :: tail) := by simp
    rw [this, parse_dq_toggle _ _ _ _ (Or.inl rfl)]
    exact parse_quoted_body f tail cur toks hhead
  · rw [escapeCsv_plain f h]
    have h1 : ∀ c ∈ f, c ≠ dq := fun c hc e => h (Or.inr (Or.inl (e ▸ hc)))
    have h2 : ∀ c ∈ f, c ≠ ',' := fun c hc e => h (Or.inl (e ▸ hc))
    exact parse_plain f false tail cur toks h1 (fun _ => h2)

theorem plain_encodes (x : Str) (h : ∀ c ∈ x, c ≠ ',' ∧ c ≠ dq) : Encodes x x := by
  intro tail cur toks _
  exact parse_plain x false tail cur toks (fun c hc => (h c hc).2) (fun _ c hc => (h c hc).1)

theorem joinCsvLoop_succ (fields : List Str) (i : Nat) (result : Str) :
    joinCsvLoop fields (i + 1) result = result ++ tailJoin fields := by
  induction fields generalizing i result with
  | nil => simp [joinCsvLoop, tailJoin]
  | cons f fs ih => simp [joinCsvLoop, tailJoin, ih]

theorem joinCsvRow_cons (field : Str) (fields : List Str) :
    joinCsvRow (field :: fields) = field ++ tailJoin fields := by
  simp [joinCsvRow, joinCsvLoop, joinCsvLoop_succ]

theorem parse_row (es fs : List Str) (h : List.Forall₂ Encodes es fs) :
    ∀ (e f cur : Str) (toks : List Str), Encodes e f →
      parseCsvLoop (e ++ tailJoin es) false cur toks = toks ++ (cur ++ f) :: fs := by
  induction h with
  | nil =>
    intro e f cur toks he
    rw [tailJoin, he [] cur toks (Or.inl rfl)]
    simp [parseCsvLoop]
  | cons hab _ ih =>
    intro e f cur toks he
    rw [tailJoin, he _ cur toks (Or.inr ⟨_, rfl⟩),
      parse_cons_other _ _ _ _ _ (by decide), if_pos ⟨rfl, rfl⟩, ih _ _ [] _ hab]
    simp

/-- A row of encoded fields is split back into the fields. -/
theorem parseCsvLine_joinCsvRow (e f : Str) (es fs : List Str) (he : Encodes e f)
    (h : List.Forall₂ Encodes es fs) :
    parseCsvLine (joinCsvRow (e :: es)) = f :: fs := by
  rw [joinCsvRow_cons, parseCsvLine, parse_row es fs h e f [] [] he]
  simp

/-! ### Facts about the numeric conversions -/

theorem digitChar_facts : ∀ k, k < 10 →
    (Nat.digitChar k).isDigit = true ∧ (Nat.digitChar k).toNat - 48 = k := by
  decide

theorem toDigitsCore_spec (fuel : Nat) : ∀ (n : Nat) (ds : Str), n < fuel →
    ∃ pre, Nat.toDigitsCore 10 fuel n ds = pre ++ ds ∧ pre ≠ [] ∧
      (∀ c ∈ pre, c.isDigit = true) ∧
      ∀ a, pre.foldl (fun acc c => acc * 10 + (c.toNat - 48)) a = a * 10 ^ pre.length + n := by
  induction fuel with
  | zero => intro n ds h; omega
  | succ fuel ih =>
    intro n ds h
    have hd := digitChar_facts (n % 10) (Nat.mod_lt _ (by decide))
    unfold Nat.toDigitsCore
    by_cases h0 : n / 10 = 0
    · refine ⟨[Nat.digitChar (n % 10)], by simp [h0], by simp, by simpa using hd.1, ?_⟩
      intro a
      simp [hd.2]
      omega
    · have hlt : n / 10 < fuel := by omega
      obtain ⟨pre, h1, h2, h3, h4⟩ := ih (n / 10) (Nat.digitChar (n % 10) :: ds) hlt
      refine ⟨pre ++ [Nat.digitChar (n % 10)], by simp [h0, h1], by simp, ?_, ?_⟩
      · intro c hc
        rcases List.mem_append.mp hc with hc | hc
        · exact h3 c hc
        · simp at hc; subst hc; exact hd.1
      · intro a
        simp [List.foldl_append, h4, hd.2, pow_succ]
        ring_nf
        omega

theorem toDigits_spec (n : Nat) :
    Nat.toDigits 10 n ≠ [] ∧ (∀ c ∈ Nat.toDigits 10 n, c.isDigit = true) ∧
      digitsValue (Nat.toDigits 10 n) = n := by
  obtain ⟨pre, h1, h2, h3, h4⟩ := toDigitsCore_spec (n + 1) n [] (Nat.lt_succ_self n)
  have h : Nat.toDigits 10 n = pre := by simp [Nat.toDigits, h1]
  rw [h]
  refine ⟨h2, h3, ?_⟩
  simp [digitsValue, h4]

theorem isDigit_ne (c : Char) (h : c.isDigit = true) :
    c ≠ ',' ∧ c ≠ dq ∧ c ≠ nl ∧ c ≠ '-' ∧ c ≠ '+' ∧ isspace c = false := by
  refine ⟨?_, ?_, ?_, ?_, ?_, ?_⟩
  · rintro rfl; revert h; decide
  · rintro rfl; revert h; decide
  · rintro rfl; revert h; decide
  · rintro rfl; revert h; decide
  · rintro rfl; revert h; decide
  · cases hs : isspace c with
    | false => rfl
    | true =>
      simp only [isspace, Bool.or_eq_true, decide_eq_true_eq] at hs
      rcases hs with ((((rfl | rfl) | rfl) | rfl) | rfl) | rfl <;> revert h <;> decide

/-- The text of an `int` holds no comma, double quote or newline. -/
theorem to_string_plain (q : Int) : ∀ c ∈ to_string q, c ≠ ',' ∧ c ≠ dq ∧ c ≠ nl := by
  have hd := (toDigits_spec q.natAbs).2.1
  have hdig : ∀ c ∈ Nat.toDigits 10 q.natAbs, c ≠ ',' ∧ c ≠ dq ∧ c ≠ nl := fun c hc =>
    ⟨(isDigit_ne c (hd c hc)).1, (isDigit_ne c (hd c hc)).2.1, (isDigit_ne c (hd c hc)).2.2.1⟩
  intro c hc
  unfold to_string at hc
  split at hc
  · rcases List.mem_cons.mp hc with rfl | hc
    · decide
    · exact hdig c hc
  · exact hdig c hc

/-- Reading back: `stoi` returns the `int` that `to_string` wrote. -/
theorem stoi_to_string (q : Int) (h : -2147483648 ≤ q ∧ q ≤ 2147483647) :
    stoi (to_string q) = some q := by
  obtain ⟨hne, hdig, hval⟩ := toDigits_spec q.natAbs
  obtain ⟨d0, ds, hds⟩ := List.exists_cons_of_ne_nil hne
  have h0 := isDigit_ne d0 (hdig d0 (by simp [hds]))
  have htake : List.takeWhile Char.isDigit (d0 :: ds) = d0 :: ds :=
    List.takeWhile_eq_self_iff.mpr (fun c hc => hdig c (by simpa [hds] using hc))
  have hsp : isspace '-' = false := by decide
  by_cases hneg : q < 0
  · have hq : -(q.natAbs : Int) = q := by omega
    have e : to_string q = '-' :: d0 :: ds := by simp [to_string, hneg, hds]
    rw [e]
    simp only [stoi, List.dropWhile_cons_of_neg (by simp [hsp] : ¬ isspace '-' = true),
      List.head?_cons, true_or, if_true, List.tail_cons, htake]
    rw [← hds, hval, hq]
    simp [hds, h]
  · have hq : (q.natAbs : Int) = q := by omega
    have e : to_string q = d0 :: ds := by simp [to_string, hneg, hds]
    have hm : ¬ (d0 = '-') := h0.2.2.2.1
    have hp : ¬ (d0 = '+') := h0.2.2.2.2.1
    rw [e]
    simp only [stoi, List.dropWhile_cons_of_neg (by simp [h0.2.2.2.2.2] : ¬ isspace d0 = true),
      List.head?_cons, Option.some.injEq, hm, hp, or_self, if_false, htake]
    rw [← hds, hval, hq]
    simp [hds, h]

/-! ### Facts about the store -/

theorem addProduct_of_mem {D : Type} (s : Inventory D) (p : Product D)
    (h : ∃ q ∈ s, q.productId = p.productId) : addProduct s p = s := by
  have : s.any (fun q => decide (q.productId = p.productId)) = true := by
    simpa [List.any_eq_true] using h
  simp [addProduct, this]

theorem addProduct_of_not_mem {D : Type} (s : Inventory D) (p : Product D)
    (h : ¬ ∃ q ∈ s, q.productId = p.productId) : addProduct s p = s ++ [p] := by
  have : ¬ s.any (fun q => decide (q.productId = p.productId)) = true := by
    simpa [List.any_eq_true] using h
  simp [addProduct, this]

theorem removeProduct_eq_eraseP {D : Type} (s : Inventory D) (id : Str) :
    removeProduct s id = s.eraseP (fun p => decide (p.productId = id)) := by
  induction s with
  | nil => simp [removeProduct]
  | cons a l ih =>
    by_cases h : a.productId = id
    · simp [removeProduct, List.findIdx_cons, h]
    · simp only [removeProduct] at ih
      simp only [removeProduct, List.findIdx_cons, h, decide_False, cond_false, List.length_cons,
        ne_eq, add_left_inj, List.eraseIdx_cons_succ]
      rw [List.eraseP_cons_of_neg (by simpa using h), ← ih]
      split <;> rfl

theorem modifyFirst_ids {D : Type} (f : Product D → Product D) (id : Str)
    (hf : ∀ p, (f p).productId = p.productId) (s : Inventory D) :
    (modifyFirst f id s).map (fun p => p.productId) = s.map (fun p => p.productId) := by
  induction s with
  | nil => rfl
  | cons a l ih =>
    by_cases h : a.productId = id
    · simp [modifyFirst, h, hf]
    · simp [modifyFirst, h, ih]

theorem Update.apply_id {D : Type} (u : Update D) (p : Product D) :
    (u.apply p).productId = p.productId := by
  cases u <;> rfl

theorem run_ids_nodup {D : Type} (s : Inventory D) (op : Op D)
    (h : (s.map (fun p => p.productId)).Nodup) :
    ((Op.run s op).map (fun p => p.productId)).Nodup := by
  cases op with
  | add product =>
    by_cases hm : ∃ q ∈ s, q.productId = product.productId
    · simpa [Op.run, addProduct_of_mem s product hm] using h
    · simp only [Op.run, addProduct_of_not_mem s product hm, List.map_append, List.map_cons,
        List.map_nil]
      refine List.Nodup.append h (List.nodup_singleton _) ?_
      intro x hx hx2
      rw [List.mem_singleton] at hx2
      subst hx2
      rcases List.mem_map.mp hx with ⟨q, hq, hqe⟩
      exact hm ⟨q, hq, hqe⟩
  | remove id =>
    simp only [Op.run, removeProduct_eq_eraseP]
    exact h.sublist ((List.eraseP_sublist s).map _)
  | update id u =>
    simp only [Op.run, updateProduct]
    split
    · exact h
    · rw [modifyFirst_ids _ _ (Update.apply_id u)]
      exact h

theorem foldl_run_ids_nodup {D : Type} (ops : List (Op D)) (s : Inventory D)
    (h : (s.map (fun p => p.productId)).Nodup) :
    ((ops.foldl Op.run s).map (fun p => p.productId)).Nodup := by
  induction ops generalizing s with
  | nil => exact h
  | cons op ops ih => exact ih _ (run_ids_nodup s op h)

theorem foldl_category {D : Type} (category : Str) (s acc : List (Product D)) :
    s.foldl
      (fun categoryProducts product =>
        if product.category = category then categoryProducts ++ [product] else categoryProducts)
      acc = acc ++ s.filter (fun p => decide (p.category = category)) := by
  induction s generalizing acc with
  | nil => simp
  | cons a l ih =>
    by_cases h : a.category = category <;> simp [List.foldl_cons, h, ih]

theorem getProductsByCategory_eq_filter {D : Type} (s : Inventory D) (category : Str) :
    getProductsByCategory s category = s.filter (fun p => decide (p.category = category)) := by
  simp [getProductsByCategory, foldl_category]

theorem foldl_reportStep {D : Type} (s : Inventory D) (r : StockReport D) :
    s.foldl reportStep r =
      ⟨r.lowStock ++ s.filter (fun p => decide (p.quantity < 10)), r.totalProducts,
        r.lowStockItems + (s.filter (fun p => decide (p.quantity < 10))).length⟩ := by
  induction s generalizing r with
  | nil => simp
  | cons a l ih =>
    by_cases h : a.quantity < 10
    · simp [List.foldl_cons, reportStep, LOW_STOCK_THRESHOLD, h, ih]
      omega
    · simp [List.foldl_cons, reportStep, LOW_STOCK_THRESHOLD, h, ih]

/-! ### Facts about decoding a line -/

theorem getElem?_of_lt {α : Type} (l : List α) (i : Nat) (h : i < l.length) :
    ∃ x, l[i]? = some x :=
  ⟨l[i], List.getElem?_eq_getElem h⟩

/-- No line makes the decoding read a token that is not there. -/
theorem decodeTokens_ne_fault {D : Type} (L : NumLib D) (category : Str) (tokens : List Str) :
    decodeTokens L category tokens ≠ .fault := by
  unfold decodeTokens
  split
  · simp
  · rename_i h4
    obtain ⟨x0, h0⟩ := getElem?_of_lt tokens 0 (by omega)
    obtain ⟨x1, h1⟩ := getElem?_of_lt tokens 1 (by omega)
    obtain ⟨x2, h2⟩ := getElem?_of_lt tokens 2 (by omega)
    obtain ⟨x3, h3⟩ := getElem?_of_lt tokens 3 (by omega)
    simp only [h0, h1, h2, h3]
    split
    · simp
    · split
      · simp
      · split
        · rename_i h6
          obtain ⟨x4, e4⟩ := getElem?_of_lt tokens 4 (by omega)
          obtain ⟨x5, e5⟩ := getElem?_of_lt tokens 5 (by omega)
          simp only [e4, e5]
          split <;> simp
        · split
          · rename_i h6
            obtain ⟨x4, e4⟩ := getElem?_of_lt tokens 4 (by omega)
            obtain ⟨x5, e5⟩ := getElem?_of_lt tokens 5 (by omega)
            simp only [e4, e5]
            simp
          · split
            · rename_i h7
              obtain ⟨x4, e4⟩ := getElem?_of_lt tokens 4 (by omega)
              obtain ⟨x5, e5⟩ := getElem?_of_lt tokens 5 (by omega)
              obtain ⟨x6, e6⟩ := getElem?_of_lt tokens 6 (by omega)
              simp only [e4, e5, e6]
              simp
            · simp

theorem bit_encodes (b : Bool) : Encodes (if b then ['1'] else ['0']) (if b then ['1'] else ['0']) :=
  plain_encodes _ (by cases b <;> decide)

theorem bit_decodes (b : Bool) : decide ((if b then ['1'] else ['0']) = ['1']) = b := by
  cases b <;> decide

/-- The row written for a product is decoded as that product, with the price `stod` reads
from the price text: provided the id and the price text hold no comma or double quote, the
category is the one of the product's subclass, and the `int` fields are 32-bit values. -/
theorem decodeRow_toCsvRow {D : Type} (L : NumLib D) (p : Product D) (price2 : D)
    (hid : ∀ c ∈ p.productId, c ≠ ',' ∧ c ≠ dq)
    (hpt : ∀ c ∈ L.to_string p.price, c ≠ ',' ∧ c ≠ dq)
    (hread : L.stod (L.to_string p.price) = some price2)
    (hcat : p.category = p.variant.category) (hint : p.IntFields) :
    decodeRow L p.category (joinCsvRow (toCsvRow L p)) = .loaded { p with price := price2 } := by
  obtain ⟨id, name, price, q, cat, v⟩ := p
  have eid := plain_encodes id hid
  have ept := plain_encodes _ hpt
  have eq := plain_encodes (to_string q) (fun c hc => ⟨(to_string_plain q c hc).1,
    (to_string_plain q c hc).2.1⟩)
  have hq := stoi_to_string q hint.1
  simp only at hcat hread
  cases v with
  | electronic b w =>
    have ew := plain_encodes (to_string w) (fun c hc => ⟨(to_string_plain w c hc).1,
      (to_string_plain w c hc).2.1⟩)
    have hw := stoi_to_string w hint.2
    have ht : parseCsvLine (joinCsvRow (toCsvRow L ⟨id, name, price, q, cat, .electronic b w⟩))
        = [id, name, L.to_string price, to_string q, b, to_string w] :=
      parseCsvLine_joinCsvRow _ _ _ _ eid
        (.cons (escapeCsv_encodes name) (.cons ept (.cons eq (.cons (escapeCsv_encodes b)
          (.cons ew .nil)))))
    simp only [Variant.category] at hcat
    rw [decodeRow, ht]
    subst hcat
    simp [decodeTokens, hread, hq, hw, Electronic]
  | food e o =>
    have ht : parseCsvLine (joinCsvRow (toCsvRow L ⟨id, name, price, q, cat, .food e o⟩))
        = [id, name, L.to_string price, to_string q, e, if o then ['1'] else ['0']] :=
      parseCsvLine_joinCsvRow _ _ _ _ eid
        (.cons (escapeCsv_encodes name) (.cons ept (.cons eq (.cons (escapeCsv_encodes e)
          (.cons (bit_encodes o) .nil)))))
    simp only [Variant.category] at hcat
    rw [decodeRow, ht]
    subst hcat
    simp [decodeTokens, hread, hq, Food, bit_decodes]
  | medicine m e r =>
    have ht : parseCsvLine (joinCsvRow (toCsvRow L ⟨id, name, price, q, cat, .medicine m e r⟩))
        = [id, name, L.to_string price, to_string q, m, e, if r then ['1'] else ['0']] :=
      parseCsvLine_joinCsvRow _ _ _ _ eid
        (.cons (escapeCsv_encodes name) (.cons ept (.cons eq (.cons (escapeCsv_encodes m)
          (.cons (escapeCsv_encodes e) (.cons (bit_encodes r) .nil))))))
    simp only [Variant.category] at hcat
    rw [decodeRow, ht]
    subst hcat
    simp [decodeTokens, hread, hq, Medicine, bit_decodes]

/-! ### Facts about reading a file -/

theorem getlines_line (l rest cur : Str) (h : nl ∉ l) :
    getlines (l ++ nl :: rest) cur = (cur ++ l) :: getlines rest [] := by
  induction l generalizing cur with
  | nil => simp [getlines]
  | cons c cs ih =>
    have hc : c ≠ nl := fun e => h (by simp [e])
    have hcs : nl ∉ cs := fun e => h (by simp [e])
    simp [getlines, hc, ih _ hcs]

theorem getlines_last (l cur : Str) (h : nl ∉ l) (hne : cur ++ l ≠ []) :
    getlines l cur = [cur ++ l] := by
  induction l generalizing cur with
  | nil => simpa [getlines] using hne
  | cons c cs ih =>
    have hc : c ≠ nl := fun e => h (by simp [e])
    have hcs : nl ∉ cs := fun e => h (by simp [e])
    simp [getlines, hc, ih (cur ++ [c]) hcs (by simp)]

theorem getlines_append (a b cur : Str) :
    getlines (a ++ nl :: b) cur = getlines (a ++ [nl]) cur ++ getlines b [] := by
  induction a generalizing cur with
  | nil => simp [getlines]
  | cons c cs ih =>
    by_cases hc : c = nl
    · simp [getlines, hc, ih]
    · simp [getlines, hc, ih]

theorem getlines_has_line (a cur : Str) (h : cur ≠ [] ∨ ∃ c ∈ a, c ≠ nl) :
    ∃ l ∈ getlines (a ++ [nl]) cur, l ≠ [] := by
  induction a generalizing cur with
  | nil =>
    rcases h with h | ⟨c, hc, _⟩
    · exact ⟨cur, by simp [getlines], h⟩
    · simp at hc
  | cons c cs ih =>
    by_cases hc : c = nl
    · rcases h with h | ⟨d, hd, hdn⟩
      · exact ⟨cur, by simp [getlines, hc], h⟩
      · have hd2 : d ∈ cs := by
          rcases List.mem_cons.mp hd with e | e
          · exact absurd (e.trans hc) hdn
          · exact e
        obtain ⟨l, hl, hne⟩ := ih [] (Or.inr ⟨d, hd2, hdn⟩)
        exact ⟨l, by simp [getlines, hc, hl], hne⟩
    · obtain ⟨l, hl, hne⟩ := ih (cur ++ [c]) (Or.inl (by simp))
      exact ⟨l, by simpa [getlines, hc] using hl, hne⟩

theorem dataLines_append (ls1 ls2 : List Str) (b : Bool) :
    dataLines (ls1 ++ ls2) b =
      dataLines ls1 b ++ dataLines ls2 (b && ls1.all (fun l => decide (l = []))) := by
  induction ls1 generalizing b with
  | nil => simp [dataLines]
  | cons l ls ih =>
    by_cases hl : l = []
    · simp [dataLines, hl, ih]
    · cases b <;> simp [dataLines, hl, ih]

theorem productsOf_append {D : Type} (L : NumLib D) (category : Str) (xs ys : List Str) :
    productsOf L category (xs ++ ys) = productsOf L category xs ++ productsOf L category ys := by
  induction xs with
  | nil => simp [productsOf]
  | cons x xs ih =>
    simp only [List.cons_append, productsOf]
    split <;> simp [ih]

/-- The loop never faults and appends the products of the data lines. -/
theorem loadLines_eq {D : Type} (L : NumLib D) (category : Str) (ls : List Str) (b : Bool)
    (inventory : Inventory D) :
    loadLines L category ls b inventory =
      some (inventory ++ productsOf L category (dataLines ls b)) := by
  induction ls generalizing b inventory with
  | nil => simp [loadLines, dataLines, productsOf]
  | cons l ls ih =>
    by_cases hl : l = []
    · simp [loadLines, dataLines, hl, ih]
    · cases b with
      | true => simp [loadLines, dataLines, hl, ih]
      | false =>
        simp only [loadLines, dataLines, hl, if_false, Bool.false_eq_true, productsOf]
        cases hd : decodeRow L category l with
        | loaded product => simp [ih]
        | skipped => simp [ih]
        | caught => simp [ih]
        | fault => exact absurd hd (decodeTokens_ne_fault L category _)

theorem loadCategoryFromFile_total {D : Type} (L : NumLib D) (disk : Disk)
    (filename category : Str) (inventory : Inventory D) :
    ∃ extra, loadCategoryFromFile L disk filename category inventory = some (inventory ++ extra) := by
  unfold loadCategoryFromFile
  split
  · exact ⟨[], by simp⟩
  · exact ⟨_, loadLines_eq L category _ true inventory⟩

theorem mem_doubled (x : Str) (c : Char) (h : c ∈ doubled x) : c ∈ x := by
  induction x with
  | nil => simp [doubled] at h
  | cons d ds ih =>
    by_cases hd : d = dq
    · simp only [doubled, hd, if_true, List.mem_cons] at h
      rcases h with h | h | h
      · simp [h, hd]
      · simp [h, hd]
      · exact List.mem_cons_of_mem _ (ih h)
    · simp only [doubled, hd, if_false, List.mem_cons] at h
      rcases h with h | h
      · simp [h]
      · exact List.mem_cons_of_mem _ (ih h)

theorem nl_not_mem_escapeCsv (x : Str) (h : nl ∉ x) : nl ∉ escapeCsv x := by
  by_cases hs : ',' ∈ x ∨ dq ∈ x ∨ nl ∈ x
  · rw [escapeCsv_special x hs]
    intro hm
    simp only [List.mem_cons, List.mem_append, List.mem_singleton] at hm
    rcases hm with hm | hm | hm
    · exact absurd hm (by decide)
    · exact h (mem_doubled x nl hm)
    · exact absurd hm (by decide)
  · rw [escapeCsv_plain x hs]
    exact h

theorem nl_not_mem_tailJoin (fields : List Str) (h : ∀ f ∈ fields, nl ∉ f) :
    nl ∉ tailJoin fields := by
  induction fields with
  | nil => simp [tailJoin]
  | cons f fs ih =>
    simp only [tailJoin, List.mem_cons, List.mem_append, not_or]
    exact ⟨by decide, h f (by simp), ih (fun g hg => h g (by simp [hg]))⟩

theorem nl_not_mem_joinCsvRow (fields : List Str) (h : ∀ f ∈ fields, nl ∉ f) :
    nl ∉ joinCsvRow fields := by
  cases fields with
  | nil => simp [joinCsvRow, joinCsvLoop]
  | cons f fs =>
    rw [joinCsvRow_cons, List.mem_append, not_or]
    exact ⟨h f (by simp), nl_not_mem_tailJoin fs (fun g hg => h g (by simp [hg]))⟩

/-- A line with too few fields, or whose price or quantity is not a number, gives no
product. -/
theorem decodeTokens_bad {D : Type} (L : NumLib D) (category : Str) (tokens : List Str)
    (hbad : tokens.length < 4 ∨ (∃ t, tokens[2]? = some t ∧ L.stod t = none) ∨
      (∃ t, tokens[3]? = some t ∧ stoi t = none) ∨
      (category = "Electronics".toList ∧ tokens.length < 6) ∨
      (category = "Food".toList ∧ tokens.length < 6) ∨
      (category = "Medicine".toList ∧ tokens.length < 7)) (p : Product D) :
    decodeTokens L category tokens ≠ .loaded p := by
  unfold decodeTokens
  by_cases h4 : tokens.length < 4
  · simp [h4]
  · obtain ⟨x0, e0⟩ := getElem?_of_lt tokens 0 (by omega)
    obtain ⟨x1, e1⟩ := getElem?_of_lt tokens 1 (by omega)
    obtain ⟨x2, e2⟩ := getElem?_of_lt tokens 2 (by omega)
    obtain ⟨x3, e3⟩ := getElem?_of_lt tokens 3 (by omega)
    simp only [h4, if_false, e0, e1, e2, e3]
    cases hs : L.stod x2 with
    | none => simp
    | some price =>
      cases hq : stoi x3 with
      | none => simp
      | some q =>
        rcases hbad with h | ⟨t, ht, hn⟩ | ⟨t, ht, hn⟩ | ⟨hc, hl⟩ | ⟨hc, hl⟩ | ⟨hc, hl⟩
        · exact absurd h h4
        · rw [e2] at ht
          cases ht
          rw [hs] at hn
          cases hn
        · rw [e3] at ht
          cases ht
          rw [hq] at hn
          cases hn
        · have h6 : ¬ tokens.length ≥ 6 := by omega
          subst hc
          simp [h6]
        · have h6 : ¬ tokens.length ≥ 6 := by omega
          subst hc
          simp [h6]
        · have h7 : ¬ tokens.length ≥ 7 := by omega
          subst hc
          simp [h7]

theorem productsOf_skip {D : Type} (L : NumLib D) (category line : Str) (xs ys : List Str)
    (h : ∀ p, decodeRow L category line ≠ .loaded p) :
    productsOf L category (xs ++ line :: ys) = productsOf L category (xs ++ ys) := by
  rw [productsOf_append, productsOf_append]
  congr 1
  cases hd : decodeRow L category line with
  | loaded product => exact absurd hd (h product)
  | skipped => simp [productsOf, hd]
  | caught => simp [productsOf, hd]
  | fault => simp [productsOf, hd]

theorem dataLines_after_header (ls1 ls2 : List Str) (h : ∃ l ∈ ls1, l ≠ []) :
    dataLines (ls1 ++ ls2) true = dataLines ls1 true ++ dataLines ls2 false := by
  rw [dataLines_append]
  have : ls1.all (fun l => decide (l = [])) = false := by
    obtain ⟨l, hl, hne⟩ := h
    rw [List.all_eq_false]
    exact ⟨l, hl, by simpa using hne⟩
  simp [this]

/-- The tokens already pushed are never touched again. -/
theorem parseCsvLoop_tokens (n : Nat) : ∀ (l : Str) (q : Bool) (cur : Str) (toks : List Str),
    l.length ≤ n → parseCsvLoop l q cur toks = toks ++ parseCsvLoop l q cur [] := by
  induction n with
  | zero =>
    intro l q cur toks h
    have : l = [] := List.length_eq_zero.mp (by omega)
    subst this
    simp [parseCsvLoop]
  | succ n ih =>
    intro l q cur toks h
    match l with
    | [] => simp [parseCsvLoop]
    | [c] =>
      simp only [parseCsvLoop]
      split
      · simp
      · split <;> simp
    | c :: d :: rest =>
      simp only [List.length_cons] at h
      simp only [parseCsvLoop]
      split
      · split
        · exact ih rest _ _ _ (by omega)
        · exact ih (d :: rest) _ _ _ (by simp; omega)
      · split
        · rw [ih (d :: rest) _ _ (toks ++ [cur]) (by simp; omega),
            ih (d :: rest) _ _ ([] ++ [cur]) (by simp; omega)]
          simp
        · exact ih (d :: rest) _ _ _ (by simp; omega)

/-- The id of a decoded product is the first token of its line. -/
theorem decodeTokens_loaded_id {D : Type} (L : NumLib D) (category : Str) (tokens : List Str)
    (p : Product D) (h : decodeTokens L category tokens = .loaded p) :
    tokens[0]? = some p.productId := by
  unfold decodeTokens at h
  split at h
  · cases h
  · split at h
    · rename_i id name t2 t3 e0 e1 e2 e3
      rw [e0]
      split at h
      · cases h
      · split at h
        · cases h
        · split at h
          · split at h
            · split at h
              · cases h
              · cases h; rfl
            · cases h
          · split at h
            · split at h
              · cases h; rfl
              · cases h
            · split at h
              · split at h
                · cases h; rfl
                · cases h
              · cases h
    · cases h

/-! ### Facts about searching and listing -/

theorem findFrom_ne_none (text needle : Str) (pos : Nat) :
    findFrom text needle pos ≠ none ↔ needle <:+: text := by
  induction text generalizing pos with
  | nil => by_cases h : needle = [] <;> simp [findFrom, h]
  | cons c rest ih =>
    rw [List.infix_cons_iff, findFrom]
    by_cases h : needle.isPrefixOf (c :: rest) = true
    · simp only [h, if_true, ne_eq, reduceCtorEq, not_false_eq_true, true_iff]
      exact Or.inl (List.isPrefixOf_iff_prefix.mp h)
    · simp only [h, if_false, Bool.false_eq_true, ih]
      constructor
      · exact Or.inr
      · rintro (hp | hi)
        · exact absurd (List.isPrefixOf_iff_prefix.mpr hp) h
        · exact hi

theorem foldl_searchByName {D : Type} (term : Str) (s acc : List (Product D)) :
    s.foldl
      (fun results product =>
        if find (product.name.map tolower) (term.map tolower) ≠ none then results ++ [product]
        else results)
      acc =
      acc ++ s.filter
        (fun p => decide (find (p.name.map tolower) (term.map tolower) ≠ none)) := by
  induction s generalizing acc with
  | nil => simp
  | cons a l ih =>
    by_cases h : find (a.name.map tolower) (term.map tolower) ≠ none
    · rw [List.foldl_cons, if_pos h, List.filter_cons_of_pos (by simpa using h), ih]
      simp
    · rw [List.foldl_cons, if_neg h, List.filter_cons_of_neg (by simpa using h), ih]

theorem tolower_idem (c : Char) : tolower (tolower c) = tolower c := by
  have key : ∀ n, 65 ≤ n → n ≤ 90 → tolower (tolower (Char.ofNat n)) = tolower (Char.ofNat n) := by
    intro n h1 h2
    interval_cases n <;> decide
  by_cases h : 65 ≤ c.toNat ∧ c.toNat ≤ 90
  · have := key c.toNat h.1 h.2
    rwa [Char.ofNat_toNat] at this
  · have e : tolower c = c := by simp only [tolower, h, if_false]
    rw [e, e]

theorem toNat_ofNat_small : ∀ n, 65 ≤ n → n ≤ 90 →
    (Char.ofNat (n + 32)).toNat = n + 32 := by
  intro n h1 h2
  interval_cases n <;> rfl

theorem char_eq_of_toNat_eq (c d : Char) (h : c.toNat = d.toNat) : c = d := by
  rw [← Char.ofNat_toNat c, ← Char.ofNat_toNat d, h]

theorem tolower_capital (c : Char) (h : 65 ≤ c.toNat ∧ c.toNat ≤ 90) :
    tolower c = Char.ofNat (c.toNat + 32) := by
  simp only [tolower, h, and_self, if_true]

theorem tolower_other (c : Char) (h : ¬ (65 ≤ c.toNat ∧ c.toNat ≤ 90)) : tolower c = c := by
  simp only [tolower, h, if_false]

/-- Two characters have the same lower case exactly when they are the same letter up to
case. -/
theorem tolower_eq_iff (c d : Char) : tolower c = tolower d ↔ sameLetter c d := by
  unfold sameLetter
  by_cases hc : 65 ≤ c.toNat ∧ c.toNat ≤ 90
  · have ec := toNat_ofNat_small c.toNat hc.1 hc.2
    by_cases hd : 65 ≤ d.toNat ∧ d.toNat ≤ 90
    · have ed := toNat_ofNat_small d.toNat hd.1 hd.2
      rw [tolower_capital c hc, tolower_capital d hd]
      constructor
      · intro h
        have h2 := congrArg Char.toNat h
        rw [ec, ed] at h2
        exact Or.inl (char_eq_of_toNat_eq c d (by omega))
      · rintro (h | ⟨_, _, h⟩ | ⟨_, _, h⟩)
        · rw [h]
        · omega
        · omega
    · rw [tolower_capital c hc, tolower_other d hd]
      constructor
      · intro h
        have h2 := congrArg Char.toNat h
        rw [ec] at h2
        exact Or.inr (Or.inl ⟨hc.1, hc.2, h2.symm⟩)
      · rintro (h | ⟨_, _, h⟩ | ⟨h1, h2, _⟩)
        · exact absurd (h ▸ hc) hd
        · exact char_eq_of_toNat_eq _ _ (by rw [ec, h])
        · exact absurd ⟨h1, h2⟩ hd
  · by_cases hd : 65 ≤ d.toNat ∧ d.toNat ≤ 90
    · have ed := toNat_ofNat_small d.toNat hd.1 hd.2
      rw [tolower_other c hc, tolower_capital d hd]
      constructor
      · intro h
        have h2 := congrArg Char.toNat h
        rw [ed] at h2
        exact Or.inr (Or.inr ⟨hd.1, hd.2, h2⟩)
      · rintro (h | ⟨h1, h2, _⟩ | ⟨_, _, h⟩)
        · exact absurd (h ▸ hd) hc
        · exact absurd ⟨h1, h2⟩ hc
        · exact char_eq_of_toNat_eq _ _ (by rw [ed, h])
    · rw [tolower_other c hc, tolower_other d hd]
      constructor
      · exact Or.inl
      · rintro (h | ⟨h1, h2, _⟩ | ⟨h1, h2, _⟩)
        · exact h
        · exact absurd ⟨h1, h2⟩ hc
        · exact absurd ⟨h1, h2⟩ hd

theorem map_tolower_eq_iff (w t : Str) :
    w.map tolower = t.map tolower ↔ List.Forall₂ sameLetter w t := by
  induction w generalizing t with
  | nil =>
    cases t with
    | nil => simp
    | cons d ds => simp
  | cons c cs ih =>
    cases t with
    | nil => simp
    | cons d ds =>
      rw [List.map_cons, List.map_cons, List.cons.injEq, List.forall₂_cons, tolower_eq_iff, ih]

/-- The lower-cased term is a run of the lower-cased name exactly when a run of the name is
the term up to the case of its letters. -/
theorem infix_tolower_iff (name term : Str) :
    (∃ a b, a ++ term.map tolower ++ b = name.map tolower) ↔
      ∃ a w b, name = a ++ w ++ b ∧ List.Forall₂ sameLetter w term := by
  constructor
  · rintro ⟨a2, b2, h⟩
    obtain ⟨l1, b, h1, h2, h3⟩ := List.map_eq_append_iff.mp h.symm
    obtain ⟨a, w, h4, h5, h6⟩ := List.map_eq_append_iff.mp h2
    exact ⟨a, w, b, by rw [h1, h4], (map_tolower_eq_iff w term).mp h6⟩
  · rintro ⟨a, w, b, h, hw⟩
    refine ⟨a.map tolower, b.map tolower, ?_⟩
    rw [h, List.map_append, List.map_append, (map_tolower_eq_iff w term).mpr hw]

theorem firstIndex_append_of_mem (a : Str) (l1 l2 : List Str) (h : a ∈ l1) :
    firstIndex a (l1 ++ l2) = firstIndex a l1 := by
  induction l1 with
  | nil => simp at h
  | cons b l ih =>
    by_cases hb : b = a
    · simp [firstIndex, hb]
    · have : a ∈ l := by
        rcases List.mem_cons.mp h with e | e
        · exact absurd e.symm hb
        · exact e
      simp [firstIndex, hb, ih this]

theorem firstIndex_append_of_not_mem (a : Str) (l1 l2 : List Str) (h : a ∉ l1) :
    firstIndex a (l1 ++ l2) = l1.length + firstIndex a l2 := by
  induction l1 with
  | nil => simp
  | cons b l ih =>
    have hb : b ≠ a := fun e => h (by simp [e])
    have hl : a ∉ l := fun e => h (by simp [e])
    simp [firstIndex, hb, ih hl]
    omega

theorem firstIndex_lt_length (a : Str) (l : List Str) (h : a ∈ l) :
    firstIndex a l < l.length := by
  induction l with
  | nil => simp at h
  | cons b l ih =>
    by_cases hb : b = a
    · simp [firstIndex, hb]
    · have : a ∈ l := by
        rcases List.mem_cons.mp h with e | e
        · exact absurd e.symm hb
        · exact e
      simp [firstIndex, hb, ih this]

theorem getAvailableCategories_snoc {D : Type} (s : Inventory D) (p : Product D) :
    getAvailableCategories (s ++ [p]) =
      if p.category ∉ getAvailableCategories s then getAvailableCategories s ++ [p.category]
      else getAvailableCategories s := by
  simp only [getAvailableCategories, List.foldl_append, List.foldl_cons, List.foldl_nil]

theorem getAvailableCategories_spec {D : Type} (s : Inventory D) :
    (getAvailableCategories s).Nodup ∧
    (∀ c, c ∈ getAvailableCategories s ↔ c ∈ s.map (fun p => p.category)) ∧
    (getAvailableCategories s).Pairwise
      (fun a b => firstIndex a (s.map (fun p => p.category))
        < firstIndex b (s.map (fun p => p.category))) := by
  induction s using List.reverseRecOn with
  | nil => simp [getAvailableCategories]
  | append_singleton l p ih =>
    obtain ⟨hnd, hmem, hord⟩ := ih
    rw [getAvailableCategories_snoc, List.map_append, List.map_cons, List.map_nil]
    have hkeep : ∀ a, a ∈ getAvailableCategories l →
        firstIndex a (l.map (fun p => p.category) ++ [p.category])
          = firstIndex a (l.map (fun p => p.category)) :=
      fun a ha => firstIndex_append_of_mem a _ _ ((hmem a).mp ha)
    have hord2 : (getAvailableCategories l).Pairwise
        (fun a b => firstIndex a (l.map (fun p => p.category) ++ [p.category])
          < firstIndex b (l.map (fun p => p.category) ++ [p.category])) := by
      refine List.Pairwise.imp_of_mem ?_ hord
      intro a b ha hb hab
      rw [hkeep a ha, hkeep b hb]
      exact hab
    by_cases hx : p.category ∈ getAvailableCategories l
    · rw [if_neg (not_not.mpr hx)]
      refine ⟨hnd, ?_, hord2⟩
      intro c
      rw [hmem c, List.mem_append, List.mem_singleton]
      constructor
      · exact Or.inl
      · rintro (h | h)
        · exact h
        · rw [h]
          exact (hmem _).mp hx
    · rw [if_pos hx]
      refine ⟨?_, ?_, ?_⟩
      · refine List.Nodup.append hnd (List.nodup_singleton _) ?_
        intro a ha ha2
        rw [List.mem_singleton] at ha2
        exact hx (ha2 ▸ ha)
      · intro c
        simp only [List.mem_append, List.mem_singleton, hmem c]
      · rw [List.pairwise_append]
        refine ⟨hord2, List.pairwise_singleton _ _, ?_⟩
        intro a ha b hb
        rw [List.mem_singleton] at hb
        subst hb
        have hx2 : p.category ∉ l.map (fun p => p.category) := fun h => hx ((hmem _).mpr h)
        rw [hkeep a ha, firstIndex_append_of_not_mem _ _ _ hx2]
        have := firstIndex_lt_length a _ ((hmem a).mp ha)
        omega

/-! ### Facts about saving -/

theorem saveCategoryToFile_writable {D : Type} (L : NumLib D) (inv : Inventory D)
    (c f : Str) (d : Disk) : (saveCategoryToFile L inv c f d).writable = d.writable := by
  unfold saveCategoryToFile
  split
  · rfl
  · split <;> rfl

theorem saveCategoryToFile_content_other {D : Type} (L : NumLib D) (inv : Inventory D)
    (c f g : Str) (d : Disk) (h : g ≠ f) :
    (saveCategoryToFile L inv c f d).content g = d.content g := by
  unfold saveCategoryToFile
  split
  · rfl
  · split
    · simp only [if_neg h]
    · rfl

theorem saveCategoryToFile_of_nil {D : Type} (L : NumLib D) (inv : Inventory D)
    (c f : Str) (d : Disk) (h : getProductsByCategory inv c = []) :
    saveCategoryToFile L inv c f d = d := by
  simp only [saveCategoryToFile, h]

theorem saveCategoryToFile_content_self {D : Type} (L : NumLib D) (inv : Inventory D)
    (c f : Str) (d : Disk) (first : Product D) (others : List (Product D))
    (h : getProductsByCategory inv c = first :: others) (hw : d.writable f = true) :
    (saveCategoryToFile L inv c f d).content f = some (fileText L first (first :: others)) := by
  simp only [saveCategoryToFile, h, hw, if_true]

/-- What a category's file holds after its save depends on that file alone. -/
theorem saveCategoryToFile_content_congr {D : Type} (L : NumLib D) (inv : Inventory D)
    (c f : Str) (d1 d2 : Disk) (hc : d1.content f = d2.content f)
    (hw : d1.writable f = d2.writable f) :
    (saveCategoryToFile L inv c f d1).content f = (saveCategoryToFile L inv c f d2).content f := by
  unfold saveCategoryToFile
  split
  · exact hc
  · rw [hw]
    split
    · simp only [if_true]
    · exact hc

theorem filenames_distinct :
    "food_inventory.csv".toList ≠ "electronics_inventory.csv".toList ∧
    "medicine_inventory.csv".toList ≠ "electronics_inventory.csv".toList ∧
    "medicine_inventory.csv".toList ≠ "food_inventory.csv".toList := by
  decide

/-- After `saveToFiles`, each of the three files holds what its own save wrote on the
original disk. -/
theorem saveToFiles_content {D : Type} (L : NumLib D) (inv : Inventory D) (d : Disk)
    (c f h : Str) (hc : (c, f, h) ∈ categoryFiles) :
    (saveToFiles L inv d).content f = (saveCategoryToFile L inv c f d).content f := by
  obtain ⟨hfe, hme, hmf⟩ := filenames_distinct
  simp only [categoryFiles, List.mem_cons, List.mem_singleton, Prod.mk.injEq, List.not_mem_nil,
    or_false] at hc
  rcases hc with ⟨rfl, rfl, _⟩ | ⟨rfl, rfl, _⟩ | ⟨rfl, rfl, _⟩
  · rw [saveToFiles, saveCategoryToFile_content_other _ _ _ _ _ _ hme.symm,
      saveCategoryToFile_content_other _ _ _ _ _ _ hfe.symm]
  · rw [saveToFiles, saveCategoryToFile_content_other _ _ _ _ _ _ hmf.symm]
    exact saveCategoryToFile_content_congr _ _ _ _ _ _
      (saveCategoryToFile_content_other _ _ _ _ _ _ hfe)
      (by rw [saveCategoryToFile_writable])
  · rw [saveToFiles]
    exact saveCategoryToFile_content_congr _ _ _ _ _ _
      (by rw [saveCategoryToFile_content_other _ _ _ _ _ _ hmf,
        saveCategoryToFile_content_other _ _ _ _ _ _ hme])
      (by rw [saveCategoryToFile_writable, saveCategoryToFile_writable])

theorem saveToFiles_writable {D : Type} (L : NumLib D) (inv : Inventory D) (d : Disk) :
    (saveToFiles L inv d).writable = d.writable := by
  simp only [saveToFiles, saveCategoryToFile_writable]

theorem getProductsByCategory_eq_nil {D : Type} (inv : Inventory D) (c : Str)
    (h : ∀ p ∈ inv, p.category ≠ c) : getProductsByCategory inv c = [] := by
  rw [getProductsByCategory_eq_filter, List.filter_eq_nil_iff]
  intro p hp
  simpa using h p hp

theorem foldl_fileText {D : Type} (L : NumLib D) (ps : List (Product D)) (text : Str) :
    ps.foldl (fun text product => text ++ joinCsvRow (toCsvRow L product) ++ [nl]) text
      = text ++ rowsText L ps := by
  induction ps generalizing text with
  | nil => simp [rowsText]
  | cons p ps ih =>
    rw [List.foldl_cons, ih, rowsText]
    simp

theorem fileText_eq {D : Type} (L : NumLib D) (first : Product D) (ps : List (Product D)) :
    fileText L first ps = getCsvHeader first ++ nl :: rowsText L ps := by
  rw [fileText, foldl_fileText]
  simp

theorem mem_modifyFirst {D : Type} (f : Product D → Product D) (id : Str) (s : Inventory D)
    (x : Product D) (h : x ∈ modifyFirst f id s) : x ∈ s ∨ ∃ q ∈ s, x = f q := by
  induction s with
  | nil => simp [modifyFirst] at h
  | cons a l ih =>
    by_cases ha : a.productId = id
    · simp only [modifyFirst, ha, if_true, List.mem_cons] at h
      rcases h with h | h
      · exact Or.inr ⟨a, by simp, h⟩
      · exact Or.inl (by simp [h])
    · simp only [modifyFirst, ha, if_false, List.mem_cons] at h
      rcases h with h | h
      · exact Or.inl (by simp [h])
      · rcases ih h with h2 | ⟨q, hq, hx⟩
        · exact Or.inl (by simp [h2])
        · exact Or.inr ⟨q, by simp [hq], hx⟩

theorem run_keeps_category {D : Type} (s : Inventory D) (op : Op D)
    (hs : ∀ p ∈ s, p.category = p.variant.category) (hop : op.KeepsCategory) :
    ∀ p ∈ Op.run s op, p.category = p.variant.category := by
  cases op with
  | add product =>
    intro p hp
    simp only [Op.run, addProduct] at hp
    split at hp
    · exact hs p hp
    · rcases List.mem_append.mp hp with h | h
      · exact hs p h
      · rw [List.mem_singleton] at h
        subst h
        exact hop
  | remove id =>
    intro p hp
    simp only [Op.run, removeProduct_eq_eraseP] at hp
    exact hs p ((List.eraseP_sublist s).subset hp)
  | update id u =>
    intro p hp
    simp only [Op.run, updateProduct] at hp
    split at hp
    · exact hs p hp
    · rcases mem_modifyFirst _ _ _ _ hp with h | ⟨q, hq, rfl⟩
      · exact hs p h
      · have hq2 := hs q hq
        cases u with
        | name n => exact hq2
        | price x => exact hq2
        | quantity n => exact hq2
        | category newCategory => exact absurd rfl (hop newCategory)
        | invalid => exact hq2

theorem foldl_run_keeps_category {D : Type} (ops : List (Op D)) (s : Inventory D)
    (hs : ∀ p ∈ s, p.category = p.variant.category) (hops : ∀ op ∈ ops, op.KeepsCategory) :
    ∀ p ∈ ops.foldl Op.run s, p.category = p.variant.category := by
  induction ops generalizing s with
  | nil => exact hs
  | cons op ops ih =>
    exact ih _ (run_keeps_category s op hs (hops op (by simp)))
      (fun o ho => hops o (by simp [ho]))

/-- The header a product writes is the one listed for the category of its subclass. -/
theorem getCsvHeader_of_category {D : Type} (p : Product D) (c f h : Str)
    (hc : (c, f, h) ∈ categoryFiles) (hp : p.variant.category = c) : getCsvHeader p = h := by
  have hne : "Food".toList ≠ "Electronics".toList ∧ "Medicine".toList ≠ "Electronics".toList ∧
      "Medicine".toList ≠ "Food".toList := by decide
  simp only [categoryFiles, List.mem_cons, List.mem_singleton, Prod.mk.injEq, List.not_mem_nil,
    or_false] at hc
  unfold getCsvHeader
  unfold Variant.category at hp
  rcases hc with ⟨rfl, _, rfl⟩ | ⟨rfl, _, rfl⟩ | ⟨rfl, _, rfl⟩ <;> split at hp <;>
    first
    | rfl
    | exact absurd hp hne.1
    | exact absurd hp hne.2.1
    | exact absurd hp hne.2.2
    | exact absurd hp.symm hne.1
    | exact absurd hp.symm hne.2.1
    | exact absurd hp.symm hne.2.2

/-! ### Facts about loading -/

theorem loadCategoryFromFile_eq {D : Type} (L : NumLib D) (disk : Disk)
    (filename category : Str) (inventory : Inventory D) :
    loadCategoryFromFile L disk filename category inventory
      = some (inventory ++ fileProducts L disk filename category) := by
  unfold loadCategoryFromFile fileProducts
  split
  · simp
  · exact loadLines_eq L category _ true inventory

theorem loadFromFiles_eq {D : Type} (L : NumLib D) (disk : Disk) :
    loadFromFiles L disk =
      some (fileProducts L disk "electronics_inventory.csv".toList "Electronics".toList
        ++ fileProducts L disk "food_inventory.csv".toList "Food".toList
        ++ fileProducts L disk "medicine_inventory.csv".toList "Medicine".toList) := by
  simp only [loadFromFiles, loadCategoryFromFile_eq, Option.some_bind, List.nil_append]

theorem mem_productsOf {D : Type} (L : NumLib D) (category row : Str) (rows : List Str)
    (p : Product D) (hrow : row ∈ rows) (hdec : decodeRow L category row = .loaded p) :
    p ∈ productsOf L category rows := by
  induction rows with
  | nil => simp at hrow
  | cons r rs ih =>
    rcases List.mem_cons.mp hrow with e | e
    · subst e
      simp [productsOf, hdec]
    · have := ih e
      simp only [productsOf]
      split
      · exact List.mem_cons_of_mem _ this
      · exact this

/-- Every product decoded from one of the three files is in the loaded store. -/
theorem mem_loadFromFiles {D : Type} (L : NumLib D) (disk : Disk) (c f h : Str)
    (p : Product D) (hc : (c, f, h) ∈ categoryFiles) (hp : p ∈ fileProducts L disk f c) :
    ∃ loaded, loadFromFiles L disk = some loaded ∧ p ∈ loaded := by
  refine ⟨_, loadFromFiles_eq L disk, ?_⟩
  simp only [categoryFiles, List.mem_cons, List.mem_singleton, Prod.mk.injEq, List.not_mem_nil,
    or_false] at hc
  rcases hc with ⟨rfl, rfl, _⟩ | ⟨rfl, rfl, _⟩ | ⟨rfl, rfl, _⟩
  · exact List.mem_append_left _ (List.mem_append_left _ hp)
  · exact List.mem_append_left _ (List.mem_append_right _ hp)
  · exact List.mem_append_right _ hp

/-! ### Facts about reloading what was saved -/

theorem nl_not_mem_row {D : Type} (L : NumLib D) (p : Product D) (hclean : p.CleanText)
    (hprice : ∀ c ∈ L.to_string p.price, c ≠ ',' ∧ c ≠ dq ∧ c ≠ nl) :
    nl ∉ joinCsvRow (toCsvRow L p) := by
  obtain ⟨_, hid, hname, hvar⟩ := hclean
  have h0 : nl ∉ p.productId := fun h => (hid nl h).2.2 rfl
  have h1 : nl ∉ escapeCsv p.name := nl_not_mem_escapeCsv _ hname
  have h2 : nl ∉ L.to_string p.price := fun h => (hprice nl h).2.2 rfl
  have h3 : nl ∉ to_string p.quantity := fun h => (to_string_plain _ nl h).2.2 rfl
  have hbit : ∀ b : Bool, nl ∉ (if b then ['1'] else ['0']) := by decide
  apply nl_not_mem_joinCsvRow
  intro f hf
  unfold toCsvRow at hf
  split at hf
  · rename_i brand warrantyMonths hv
    rw [hv] at hvar
    simp only [List.mem_cons, List.mem_singleton, List.not_mem_nil, or_false] at hf
    rcases hf with rfl | rfl | rfl | rfl | rfl | rfl
    · exact h0
    · exact h1
    · exact h2
    · exact h3
    · exact nl_not_mem_escapeCsv _ hvar
    · exact fun h => (to_string_plain _ nl h).2.2 rfl
  · rename_i expiryDate isOrganic hv
    rw [hv] at hvar
    simp only [List.mem_cons, List.mem_singleton, List.not_mem_nil, or_false] at hf
    rcases hf with rfl | rfl | rfl | rfl | rfl | rfl
    · exact h0
    · exact h1
    · exact h2
    · exact h3
    · exact nl_not_mem_escapeCsv _ hvar
    · exact hbit _
  · rename_i manufacturer expiryDate prescriptionRequired hv
    rw [hv] at hvar
    simp only [List.mem_cons, List.mem_singleton, List.not_mem_nil, or_false] at hf
    rcases hf with rfl | rfl | rfl | rfl | rfl | rfl | rfl
    · exact h0
    · exact h1
    · exact h2
    · exact h3
    · exact nl_not_mem_escapeCsv _ hvar.1
    · exact nl_not_mem_escapeCsv _ hvar.2
    · exact hbit _

theorem row_ne_nil {D : Type} (L : NumLib D) (p : Product D) :
    joinCsvRow (toCsvRow L p) ≠ [] := by
  unfold toCsvRow
  split <;> simp [joinCsvRow_cons, tailJoin]

theorem getlines_rowsText {D : Type} (L : NumLib D) (ps : List (Product D))
    (h : ∀ p ∈ ps, nl ∉ joinCsvRow (toCsvRow L p)) :
    getlines (rowsText L ps) [] = ps.map (fun p => joinCsvRow (toCsvRow L p)) := by
  induction ps with
  | nil => simp [rowsText, getlines]
  | cons p ps ih =>
    rw [rowsText, getlines_line _ _ _ (h p (by simp)), ih (fun q hq => h q (by simp [hq]))]
    simp

theorem dataLines_false (ls : List Str) (h : ∀ l ∈ ls, l ≠ []) : dataLines ls false = ls := by
  induction ls with
  | nil => rfl
  | cons l ls ih =>
    simp [dataLines, h l (by simp), ih (fun m hm => h m (by simp [hm]))]

theorem getCsvHeader_line {D : Type} (p : Product D) :
    nl ∉ getCsvHeader p ∧ getCsvHeader p ≠ [] := by
  unfold getCsvHeader
  split <;> decide

/-- The rows written for the products of a category are decoded as products with the same
ids, in the same order. -/
theorem productsOf_rows_ids {D : Type} (L : NumLib D) (c : Str) (ps : List (Product D))
    (h : ∀ p ∈ ps, p.category = c ∧ p.CleanText ∧ p.LibraryOk L) :
    (productsOf L c (ps.map (fun p => joinCsvRow (toCsvRow L p)))).map (fun p => p.productId)
      = ps.map (fun p => p.productId) := by
  induction ps with
  | nil => simp [productsOf]
  | cons p ps ih =>
    obtain ⟨hc, hclean, hint, hprice, hread⟩ := h p (by simp)
    obtain ⟨x, hx⟩ := Option.isSome_iff_exists.mp hread
    have hdec := decodeRow_toCsvRow L p x (fun d hd => ⟨(hclean.2.1 d hd).1, (hclean.2.1 d hd).2.1⟩)
      (fun d hd => ⟨(hprice d hd).1, (hprice d hd).2.1⟩) hx hclean.1 hint
    rw [hc] at hdec
    simp only [List.map_cons, productsOf, hdec]
    rw [ih (fun q hq => h q (by simp [hq]))]

/-- After `saveToFiles` on a disk without category files, the file of each category decodes
to products with the ids of the store's products of that category, in their order. -/
theorem saved_fileProducts_ids {D : Type} (L : NumLib D) (inv : Inventory D) (disk : Disk)
    (c f h : Str) (hc : (c, f, h) ∈ categoryFiles)
    (hclean : ∀ p ∈ inv, p.CleanText) (hlib : ∀ p ∈ inv, p.LibraryOk L)
    (hnofile : disk.content f = none)
    (hw : (∃ p ∈ inv, p.category = c) → disk.writable f = true) :
    (fileProducts L (saveToFiles L inv disk) f c).map (fun p => p.productId)
      = (getProductsByCategory inv c).map (fun p => p.productId) := by
  have hmem : ∀ p ∈ getProductsByCategory inv c, p ∈ inv ∧ p.category = c := by
    intro p hp
    rw [getProductsByCategory_eq_filter, List.mem_filter] at hp
    exact ⟨hp.1, by simpa using hp.2⟩
  cases hps : getProductsByCategory inv c with
  | nil =>
    simp only [fileProducts, saveToFiles_content L inv disk c f h hc,
      saveCategoryToFile_of_nil L inv c f disk hps, hnofile, List.map_nil]
  | cons first others =>
    rw [hps] at hmem
    have hfirst := hmem first (by simp)
    have hwr := hw ⟨first, hfirst.1, hfirst.2⟩
    have hrows : ∀ p ∈ first :: others, nl ∉ joinCsvRow (toCsvRow L p) :=
      fun p hp => nl_not_mem_row L p (hclean p (hmem p hp).1) (hlib p (hmem p hp).1).2.1
    have hdata : dataLines (getCsvHeader first ::
        (first :: others).map (fun p => joinCsvRow (toCsvRow L p))) true
        = (first :: others).map (fun p => joinCsvRow (toCsvRow L p)) := by
      rw [dataLines, if_neg (getCsvHeader_line first).2, if_pos rfl]
      apply dataLines_false
      intro l hl
      obtain ⟨p, _, rfl⟩ := List.mem_map.mp hl
      exact row_ne_nil L p
    simp only [fileProducts, saveToFiles_content L inv disk c f h hc,
      saveCategoryToFile_content_self L inv c f disk first others hps hwr, fileText_eq]
    rw [getlines_line _ _ _ (getCsvHeader_line first).1, List.nil_append,
      getlines_rowsText L _ hrows, hdata]
    exact productsOf_rows_ids L c _
      (fun p hp => ⟨(hmem p hp).2, hclean p (hmem p hp).1, hlib p (hmem p hp).1⟩)

/-! ## Theorems for the claims -/

/-- C1 fails on the code: `toCsvRow` writes the id as it is, without `escapeCsv`. For the
Electronic product with id `A,1`, whatever the numeric library and the price, the encoded
row never decodes to a product with that id (its first token is `A`); with decimal prices
the row is reported as a parse error and gives no product at all. -/
theorem C1_unescaped_id_breaks_roundtrip :
    (∀ (D : Type) (L : NumLib D) (price : D) (p2 : Product D),
      decodeRow L "Electronics".toList
        (joinCsvRow (toCsvRow L
          (Electronic "A,1".toList "Phone".toList price 5 "Acme".toList 12))) = .loaded p2 →
      p2.productId = "A".toList) ∧
    decodeRow Micro "Electronics".toList
      (joinCsvRow (toCsvRow Micro
        (Electronic "A,1".toList "Phone".toList 599990000 5 "Acme".toList 12))) = .caught := by
  refine ⟨?_, by decide⟩
  intro D L price p2 h
  have h0 := decodeTokens_loaded_id L _ _ p2 h
  have e : joinCsvRow (toCsvRow L (Electronic "A,1".toList "Phone".toList price 5 "Acme".toList 12))
      = 'A' :: ',' :: ('1' :: tailJoin [escapeCsv "Phone".toList, L.to_string price, to_string 5,
          escapeCsv "Acme".toList, to_string 12]) := by
    simp [toCsvRow, Electronic, joinCsvRow_cons]
  rw [e, parseCsvLine, parse_cons_other _ _ _ _ _ (by decide), if_neg (by decide),
    parse_cons_other _ _ _ _ _ (by decide), if_pos ⟨rfl, rfl⟩,
    parseCsvLoop_tokens _ _ _ _ _ (le_refl _)] at h0
  simp at h0
  exact h0.symm

/-- C2: for every non-empty list of field strings (commas, double quotes and newlines
allowed in each), escaping each field with `escapeCsv`, joining with `joinCsvRow` and
splitting with `parseCsvLine` gives back exactly the original list. -/
theorem C2_escape_join_parse_roundtrip (fields : List Str) (hne : fields ≠ []) :
    parseCsvLine (joinCsvRow (fields.map escapeCsv)) = fields := by
  cases fields with
  | nil => exact absurd rfl hne
  | cons f fs =>
    rw [List.map_cons]
    refine parseCsvLine_joinCsvRow _ f _ fs (escapeCsv_encodes f) ?_
    induction fs with
    | nil => exact List.Forall₂.nil
    | cons g gs ih => exact List.Forall₂.cons (escapeCsv_encodes g) (ih (by simp))

/-- Witness for C2: three fields, one with a comma and a double quote, one with a newline. -/
theorem C2_escape_join_parse_roundtrip_witness :
    parseCsvLine (joinCsvRow (["E1".toList, "Phone, \"5G\"".toList, "a\nb".toList].map escapeCsv))
      = ["E1".toList, "Phone, \"5G\"".toList, "a\nb".toList] :=
  C2_escape_join_parse_roundtrip _ (by simp)

/-- C3: starting from the empty store, after any finite sequence of `addProduct`,
`removeProduct` and `updateProduct` calls (name, price, quantity or category updates), no
two products of the store share an id. -/
theorem C3_ids_unique_after_any_calls {D : Type} (ops : List (Op D)) :
    ((runOps ops).map (fun p => p.productId)).Nodup :=
  foldl_run_ids_nodup ops [] List.nodup_nil

/-- C4: if some product of the store already has the new product's id, `addProduct` leaves
the store exactly as it was; otherwise the result is the store with the product appended as
its last element. Adding two products with the same id (whatever their categories) to the
empty store leaves the store holding only the first. -/
theorem C4_addProduct_rejects_or_appends {D : Type} (s : Inventory D) (p : Product D) :
    ((∃ q ∈ s, q.productId = p.productId) → addProduct s p = s) ∧
    ((¬ ∃ q ∈ s, q.productId = p.productId) → addProduct s p = s ++ [p]) ∧
    (∀ p2 : Product D, p2.productId = p.productId →
      addProduct (addProduct [] p) p2 = [p] ∧ (addProduct (addProduct [] p) p2).length = 1) := by
  refine ⟨addProduct_of_mem s p, addProduct_of_not_mem s p, ?_⟩
  intro p2 h
  have h1 : addProduct [] p = [p] := by simp [addProduct]
  have h2 : addProduct [p] p2 = [p] := addProduct_of_mem [p] p2 ⟨p, by simp, h.symm⟩
  rw [h1, h2]
  exact ⟨rfl, rfl⟩

/-- Witness for C4: an Electronic `X1`, then a Food with the same id (rejected) and a
Medicine `M2` (appended). -/
theorem C4_addProduct_rejects_or_appends_witness :
    addProduct [Electronic "X1".toList "Phone".toList (1 : Int) 5 "Acme".toList 12]
        (Food "X1".toList "Milk".toList 2 3 "01/01/2030".toList true)
      = [Electronic "X1".toList "Phone".toList 1 5 "Acme".toList 12] ∧
    addProduct [Electronic "X1".toList "Phone".toList (1 : Int) 5 "Acme".toList 12]
        (Medicine "M2".toList "Pill".toList 2 3 "Lab".toList "01/01/2030".toList false)
      = [Electronic "X1".toList "Phone".toList 1 5 "Acme".toList 12,
          Medicine "M2".toList "Pill".toList 2 3 "Lab".toList "01/01/2030".toList false] ∧
    (addProduct (addProduct [] (Electronic "X1".toList "Phone".toList (1 : Int) 5 "Acme".toList 12))
        (Food "X1".toList "Milk".toList 2 3 "01/01/2030".toList true)).length = 1 :=
  ⟨(C4_addProduct_rejects_or_appends _ _).1 ⟨_, List.mem_singleton.mpr rfl, rfl⟩,
    (C4_addProduct_rejects_or_appends _ _).2.1 (by decide),
    ((C4_addProduct_rejects_or_appends []
      (Electronic "X1".toList "Phone".toList (1 : Int) 5 "Acme".toList 12)).2.2
      (Food "X1".toList "Milk".toList 2 3 "01/01/2030".toList true) rfl).2⟩

/-- C5 fails on the code: `loadCategoryFromFile` pushes every decoded row at the back of the
inventory without the id check of `addProduct`. An Electronics file with two rows of id `E1`
and a Food file with one more load as three products with id `E1`. Such files arise from the
program alone: save an Electronic `E1`, remove it, add a Food `E1` and save again (the
Electronics file is not rewritten); the next load holds `E1` twice. -/
theorem C5_load_keeps_duplicate_ids :
    (loadFromFiles Micro duplicateDisk).map (fun inv => inv.map (fun p => p.productId))
      = some ["E1".toList, "E1".toList, "E1".toList] ∧
    (loadFromFiles Micro duplicateDisk).map (fun inv => inv.map (fun p => p.name))
      = some ["Phone".toList, "Tablet".toList, "Milk".toList] ∧
    loadFromFiles Micro
      (saveToFiles Micro
        (addProduct
          (removeProduct
            (addProduct [] (Electronic "E1".toList "Phone".toList 599990000 5 "Acme".toList 12))
            "E1".toList)
          (Food "E1".toList "Milk".toList 1250000 20 "01/01/2030".toList true))
        (saveToFiles Micro
          (addProduct [] (Electronic "E1".toList "Phone".toList 599990000 5 "Acme".toList 12))
          emptyDisk))
      = some [Electronic "E1".toList "Phone".toList 599990000 5 "Acme".toList 12,
          Food "E1".toList "Milk".toList 1250000 20 "01/01/2030".toList true] := by
  decide

/-- C6: for every Electronic product whose id holds no comma, double quote or newline and whose
name and brand hold no newline, adding it to the empty store, saving with `saveToFiles` (the
Electronics file being writable) and reloading with `loadFromFiles` gives a store in which
`searchById` finds an Electronic product with the same id, name, quantity, brand and
warranty. The `int` fields are 32-bit values; of the library it is assumed that the text
written for the price holds no comma, double quote or newline and that `stod` accepts it. -/
theorem C6_electronic_survives_save_reload {D : Type} (L : NumLib D) (disk : Disk)
    (id name : Str) (price : D) (quantity : Int) (brand : Str) (warranty : Int)
    (hid : ∀ c ∈ id, c ≠ ',' ∧ c ≠ dq ∧ c ≠ nl)
    (hname : nl ∉ name) (hbrand : nl ∉ brand)
    (hquantity : isInt32 quantity) (hwarranty : isInt32 warranty)
    (hptext : ∀ c ∈ L.to_string price, c ≠ ',' ∧ c ≠ dq ∧ c ≠ nl)
    (hpread : (L.stod (L.to_string price)).isSome = true)
    (hwritable : disk.writable "electronics_inventory.csv".toList = true) :
    ∃ inventory price2,
      loadFromFiles L
        (saveToFiles L (addProduct [] (Electronic id name price quantity brand warranty)) disk)
        = some inventory ∧
      searchById inventory id = some (Electronic id name price2 quantity brand warranty) := by
  obtain ⟨price2, hp2⟩ := Option.isSome_iff_exists.mp hpread
  have hdec : decodeRow L "Electronics".toList
      (joinCsvRow (toCsvRow L (Electronic id name price quantity brand warranty)))
      = .loaded (Electronic id name price2 quantity brand warranty) :=
    decodeRow_toCsvRow L (Electronic id name price quantity brand warranty) price2
      (fun c hc => ⟨(hid c hc).1, (hid c hc).2.1⟩)
      (fun c hc => ⟨(hptext c hc).1, (hptext c hc).2.1⟩) hp2 rfl ⟨hquantity, hwarranty⟩
  have hnl : nl ∉ joinCsvRow (toCsvRow L (Electronic id name price quantity brand warranty)) := by
    apply nl_not_mem_joinCsvRow
    intro f hf
    simp only [toCsvRow, Electronic, List.mem_cons, List.mem_singleton, List.not_mem_nil,
      or_false] at hf
    rcases hf with rfl | rfl | rfl | rfl | rfl | rfl
    · exact fun h => (hid nl h).2.2 rfl
    · exact nl_not_mem_escapeCsv name hname
    · exact fun h => (hptext nl h).2.2 rfl
    · exact fun h => (to_string_plain quantity nl h).2.2 rfl
    · exact nl_not_mem_escapeCsv brand hbrand
    · exact fun h => (to_string_plain warranty nl h).2.2 rfl
  have hne : joinCsvRow (toCsvRow L (Electronic id name price quantity brand warranty)) ≠ [] := by
    simp [toCsvRow, Electronic, joinCsvRow_cons, tailJoin]
  have hadd : addProduct [] (Electronic id name price quantity brand warranty)
      = [Electronic id name price quantity brand warranty] := by simp [addProduct]
  have hE : getProductsByCategory [Electronic id name price quantity brand warranty]
      "Electronics".toList = [Electronic id name price quantity brand warranty] := by
    simp [getProductsByCategory, Electronic]
  have hF : getProductsByCategory [Electronic id name price quantity brand warranty]
      "Food".toList = [] := by
    simp [getProductsByCategory, Electronic]
  have hM : getProductsByCategory [Electronic id name price quantity brand warranty]
      "Medicine".toList = [] := by
    simp [getProductsByCategory, Electronic]
  have htext : fileText L (Electronic id name price quantity brand warranty)
      [Electronic id name price quantity brand warranty] =
      "product_id,name,price,quantity,brand,warranty_months".toList ++ nl ::
        (joinCsvRow (toCsvRow L (Electronic id name price quantity brand warranty)) ++ [nl]) := by
    simp [fileText, getCsvHeader, Electronic]
  rw [hadd]
  simp only [saveToFiles, saveCategoryToFile, hE, hF, hM, hwritable, if_true, htext]
  generalize joinCsvRow (toCsvRow L (Electronic id name price quantity brand warranty)) = row
    at hdec hnl hne ⊢
  have hhnl : nl ∉ "product_id,name,price,quantity,brand,warranty_months".toList := by decide
  have hlines : getlines ("product_id,name,price,quantity,brand,warranty_months".toList
      ++ nl :: (row ++ [nl])) [] =
      ["product_id,name,price,quantity,brand,warranty_months".toList, row] := by
    rw [getlines_line _ _ _ hhnl, getlines_line _ _ _ hnl]
    simp [getlines]
  have hdata : dataLines ["product_id,name,price,quantity,brand,warranty_months".toList, row]
      true = [row] := by
    simp [dataLines, hne]
  have h1 : loadCategoryFromFile L
      { disk with
        content := fun f =>
          if f = "electronics_inventory.csv".toList then
            some ("product_id,name,price,quantity,brand,warranty_months".toList ++ nl ::
              (row ++ [nl]))
          else disk.content f }
      "electronics_inventory.csv".toList "Electronics".toList []
      = some [Electronic id name price2 quantity brand warranty] := by
    simp only [loadCategoryFromFile, if_true, loadLines_eq, hlines, hdata, productsOf, hdec,
      List.nil_append]
  obtain ⟨x1, h2⟩ := loadCategoryFromFile_total L
      { disk with
        content := fun f =>
          if f = "electronics_inventory.csv".toList then
            some ("product_id,name,price,quantity,brand,warranty_months".toList ++ nl ::
              (row ++ [nl]))
          else disk.content f }
      "food_inventory.csv".toList "Food".toList [Electronic id name price2 quantity brand warranty]
  obtain ⟨x2, h3⟩ := loadCategoryFromFile_total L
      { disk with
        content := fun f =>
          if f = "electronics_inventory.csv".toList then
            some ("product_id,name,price,quantity,brand,warranty_months".toList ++ nl ::
              (row ++ [nl]))
          else disk.content f }
      "medicine_inventory.csv".toList "Medicine".toList
      ([Electronic id name price2 quantity brand warranty] ++ x1)
  refine ⟨([Electronic id name price2 quantity brand warranty] ++ x1) ++ x2, price2, ?_, ?_⟩
  · simp only [loadFromFiles, h1, h2, h3, Option.bind_some, Option.some_bind]
  · simp [searchById, Electronic]

/-- Witness for C6: id `E1`, name `Phone, 5G`, price 599.99, quantity 5, brand `Acme`,
warranty 12, saved to a disk with no file. -/
theorem C6_electronic_survives_save_reload_witness :
    ∃ inventory price2,
      loadFromFiles Micro
        (saveToFiles Micro
          (addProduct [] (Electronic "E1".toList "Phone, 5G".toList 599990000 5 "Acme".toList 12))
          emptyDisk) = some inventory ∧
      searchById inventory "E1".toList
        = some (Electronic "E1".toList "Phone, 5G".toList price2 5 "Acme".toList 12) :=
  C6_electronic_survives_save_reload Micro emptyDisk "E1".toList "Phone, 5G".toList 599990000 5
    "Acme".toList 12 (by decide) (by decide) (by decide) ⟨by decide, by decide⟩
    ⟨by decide, by decide⟩ (by decide) (by decide) (by decide)

/-- C7: `getProductsByCategory c` returns exactly the products of the store whose category
field equals `c`, each as often as it is in the store, in insertion order: it is the store
filtered by `category = c`. -/
theorem C7_getProductsByCategory_exact {D : Type} (s : Inventory D) (c : Str) :
    getProductsByCategory s c = s.filter (fun p => decide (p.category = c)) ∧
    (getProductsByCategory s c).Sublist s ∧
    (∀ p, p ∈ getProductsByCategory s c ↔ p ∈ s ∧ p.category = c) := by
  rw [getProductsByCategory_eq_filter]
  exact ⟨rfl, List.filter_sublist s, fun p => by simp [List.mem_filter]⟩

/-- C8: if no product of the store has the id, `removeProduct` leaves the store unchanged;
otherwise the store splits around the first product with that id, and the result is the
store without that one product: one shorter, the others unchanged and in the same order. -/
theorem C8_removeProduct_first_match {D : Type} (s : Inventory D) (id : Str) :
    ((∀ p ∈ s, p.productId ≠ id) → removeProduct s id = s) ∧
    ((∃ p ∈ s, p.productId = id) →
      ∃ pre p post, s = pre ++ p :: post ∧ p.productId = id ∧ (∀ q ∈ pre, q.productId ≠ id) ∧
        removeProduct s id = pre ++ post ∧ (removeProduct s id).length + 1 = s.length) := by
  rw [removeProduct_eq_eraseP]
  constructor
  · intro h
    exact List.eraseP_of_forall_not (fun q hq => by simpa using h q hq)
  · rintro ⟨p, hp, hpid⟩
    obtain ⟨a, l1, l2, h1, h2, h3, h4⟩ :=
      @List.exists_of_eraseP _ (fun q : Product D => decide (q.productId = id)) s p hp
        (by simpa using hpid)
    refine ⟨l1, a, l2, h3, by simpa using h2, fun q hq => by simpa using h1 q hq, h4, ?_⟩
    rw [h4, h3]
    simp
    omega

/-- Witness for C8: removing `B` from a store of three, and an id no product has. -/
theorem C8_removeProduct_first_match_witness :
    removeProduct [Electronic "A".toList [] (1 : Int) 5 [] 12, Food "B".toList [] 2 3 [] true,
        Medicine "C".toList [] 2 3 [] [] false] "Z".toList
      = [Electronic "A".toList [] 1 5 [] 12, Food "B".toList [] 2 3 [] true,
        Medicine "C".toList [] 2 3 [] [] false] ∧
    ∃ pre p post,
      [Electronic "A".toList [] (1 : Int) 5 [] 12, Food "B".toList [] 2 3 [] true,
        Medicine "C".toList [] 2 3 [] [] false] = pre ++ p :: post ∧
      p.productId = "B".toList ∧ (∀ q ∈ pre, q.productId ≠ "B".toList) ∧
      removeProduct [Electronic "A".toList [] (1 : Int) 5 [] 12, Food "B".toList [] 2 3 [] true,
        Medicine "C".toList [] 2 3 [] [] false] "B".toList = pre ++ post ∧
      (removeProduct [Electronic "A".toList [] (1 : Int) 5 [] 12, Food "B".toList [] 2 3 [] true,
        Medicine "C".toList [] 2 3 [] [] false] "B".toList).length + 1 = 3 :=
  ⟨(C8_removeProduct_first_match _ _).1 (by decide),
    (C8_removeProduct_first_match _ _).2 ⟨Food "B".toList [] 2 3 [] true, by decide, rfl⟩⟩

/-- C9: for a non-empty store `generateStockReport` produces a report whose low-stock list is
exactly the products with quantity strictly below 10, in insertion order, and whose
low-stock count is their number: a product with quantity 10 or more is never flagged, one
with quantity 9 or less (zero and negative included) always is, whatever its category. -/
theorem C9_low_stock_exact {D : Type} (s : Inventory D) (h : s ≠ []) :
    ∃ r, generateStockReport s = some r ∧
      r.lowStock = s.filter (fun p => decide (p.quantity < 10)) ∧
      r.lowStockItems = ((s.filter (fun p => decide (p.quantity < 10))).length : Int) ∧
      (∀ p ∈ s, 10 ≤ p.quantity → p ∉ r.lowStock) ∧
      (∀ p ∈ s, p.quantity ≤ 9 → p ∈ r.lowStock) := by
  have he : s.isEmpty = false := by
    cases s with
    | nil => exact absurd rfl h
    | cons a l => rfl
  refine ⟨s.foldl reportStep ⟨[], s.length, 0⟩, by simp [generateStockReport, he], ?_⟩
  rw [foldl_reportStep]
  refine ⟨by simp, by simp, ?_, ?_⟩
  · intro p _ hq
    simp only [List.nil_append, List.mem_filter, decide_eq_true_eq, not_and, not_lt]
    intro _
    exact hq
  · intro p hp hq
    simp only [List.nil_append, List.mem_filter, decide_eq_true_eq]
    exact ⟨hp, by omega⟩

/-- Witness for C9: quantities 9, 10, 0 and -3 in three categories. -/
theorem C9_low_stock_exact_witness :
    ∃ r, generateStockReport [Electronic "A".toList [] (1 : Int) 9 [] 12,
        Food "B".toList [] 2 10 [] true, Medicine "C".toList [] 2 0 [] [] false,
        Food "D".toList [] 2 (-3) [] false] = some r ∧
      r.lowStock = [Electronic "A".toList [] (1 : Int) 9 [] 12,
        Food "B".toList [] 2 10 [] true, Medicine "C".toList [] 2 0 [] [] false,
        Food "D".toList [] 2 (-3) [] false].filter (fun p => decide (p.quantity < 10)) ∧
      r.lowStockItems = (([Electronic "A".toList [] (1 : Int) 9 [] 12,
        Food "B".toList [] 2 10 [] true, Medicine "C".toList [] 2 0 [] [] false,
        Food "D".toList [] 2 (-3) [] false].filter
          (fun p => decide (p.quantity < 10))).length : Int) ∧
      (∀ p ∈ [Electronic "A".toList [] (1 : Int) 9 [] 12,
        Food "B".toList [] 2 10 [] true, Medicine "C".toList [] 2 0 [] [] false,
        Food "D".toList [] 2 (-3) [] false], 10 ≤ p.quantity → p ∉ r.lowStock) ∧
      (∀ p ∈ [Electronic "A".toList [] (1 : Int) 9 [] 12,
        Food "B".toList [] 2 10 [] true, Medicine "C".toList [] 2 0 [] [] false,
        Food "D".toList [] 2 (-3) [] false], p.quantity ≤ 9 → p ∈ r.lowStock) :=
  C9_low_stock_exact _ (by simp)

/-- C10: in a category file, a data row (a non-empty line after the header) that has fewer
than 4 fields, or whose price or quantity field cannot be converted to a number, or that has
fewer fields than the file's variant requires (6 for Electronics and Food, 7 for Medicine),
contributes no product, and the file loads exactly as the file without that row does.
`before` is the text up to the end of the line before the row; the row ends with a newline,
or it ends the file. -/
theorem C10_malformed_row_is_skipped {D : Type} (L : NumLib D) (disk1 disk2 : Disk)
    (filename category before row rowEnd rest : Str) (inventory : Inventory D)
    (hheader : ∃ c ∈ before, c ≠ nl) (hrow : row ≠ []) (hnl : nl ∉ row)
    (hend : rowEnd = [nl] ∨ (rowEnd = [] ∧ rest = []))
    (hbad : (parseCsvLine row).length < 4 ∨
      (∃ t, (parseCsvLine row)[2]? = some t ∧ L.stod t = none) ∨
      (∃ t, (parseCsvLine row)[3]? = some t ∧ stoi t = none) ∨
      (category = "Electronics".toList ∧ (parseCsvLine row).length < 6) ∨
      (category = "Food".toList ∧ (parseCsvLine row).length < 6) ∨
      (category = "Medicine".toList ∧ (parseCsvLine row).length < 7))
    (h1 : disk1.content filename = some (before ++ nl :: (row ++ rowEnd ++ rest)))
    (h2 : disk2.content filename = some (before ++ nl :: rest)) :
    (∀ p, decodeRow L category row ≠ .loaded p) ∧
    loadCategoryFromFile L disk1 filename category inventory
      = loadCategoryFromFile L disk2 filename category inventory := by
  have hdec : ∀ p, decodeRow L category row ≠ .loaded p :=
    fun p => decodeTokens_bad L category (parseCsvLine row) hbad p
  refine ⟨hdec, ?_⟩
  have hls := getlines_has_line before [] (Or.inr hheader)
  simp only [loadCategoryFromFile, h1, h2, loadLines_eq]
  congr 2
  rw [getlines_append before rest, dataLines_after_header _ _ hls, productsOf_append,
    getlines_append before, dataLines_after_header _ _ hls, productsOf_append]
  congr 1
  rcases hend with rfl | ⟨rfl, rfl⟩
  · have e : row ++ [nl] ++ rest = row ++ nl :: rest := by simp
    rw [e, getlines_line _ _ _ hnl]
    simp only [List.nil_append, dataLines, hrow, if_false, Bool.false_eq_true]
    exact productsOf_skip L category row [] _ hdec
  · have e : row ++ [] ++ [] = row := by simp
    rw [e, getlines_last row [] hnl (by simpa using hrow)]
    simp only [List.nil_append, dataLines, hrow, if_false, Bool.false_eq_true, getlines, if_true]
    exact productsOf_skip L category row [] [] hdec

/-- Witness for C10: an Electronics file with one well-formed row and one row whose price is
`abc` loads exactly the well-formed record, as the file without the second row does. -/
theorem C10_malformed_row_is_skipped_witness :
    (∀ p, decodeRow Micro "Electronics".toList sampleBadRow ≠ .loaded p) ∧
    loadCategoryFromFile Micro (diskWith (sampleGoodText ++ nl :: (sampleBadRow ++ [nl] ++ [])))
        "electronics_inventory.csv".toList "Electronics".toList []
      = loadCategoryFromFile Micro (diskWith (sampleGoodText ++ nl :: []))
        "electronics_inventory.csv".toList "Electronics".toList [] ∧
    loadCategoryFromFile Micro (diskWith (sampleGoodText ++ nl :: (sampleBadRow ++ [nl] ++ [])))
        "electronics_inventory.csv".toList "Electronics".toList []
      = some [Electronic "E1".toList "Phone".toList 599990000 5 "Acme".toList 12] :=
  ⟨(C10_malformed_row_is_skipped Micro
      (diskWith (sampleGoodText ++ nl :: (sampleBadRow ++ [nl] ++ [])))
      (diskWith (sampleGoodText ++ nl :: [])) "electronics_inventory.csv".toList
      "Electronics".toList sampleGoodText sampleBadRow [nl] [] []
      ⟨'p', by decide, by decide⟩ (by decide) (by decide) (Or.inl rfl)
      (Or.inr (Or.inl ⟨"abc".toList, by decide, by decide⟩)) rfl rfl).1,
    (C10_malformed_row_is_skipped Micro
      (diskWith (sampleGoodText ++ nl :: (sampleBadRow ++ [nl] ++ [])))
      (diskWith (sampleGoodText ++ nl :: [])) "electronics_inventory.csv".toList
      "Electronics".toList sampleGoodText sampleBadRow [nl] [] []
      ⟨'p', by decide, by decide⟩ (by decide) (by decide) (Or.inl rfl)
      (Or.inr (Or.inl ⟨"abc".toList, by decide, by decide⟩)) rfl rfl).2,
    by decide⟩

/-- C11: for each of the three categories, when the store holds no product of the category,
`saveToFiles` leaves the category's file exactly as it was: it reads as before (a file that
could not be read still cannot, an existing file has the same content) and can be written
as before. -/
theorem C11_empty_category_file_untouched {D : Type} (L : NumLib D) (inv : Inventory D)
    (disk : Disk) (c f h : Str) (hc : (c, f, h) ∈ categoryFiles)
    (hnone : ∀ p ∈ inv, p.category ≠ c) :
    (saveToFiles L inv disk).content f = disk.content f ∧
    (saveToFiles L inv disk).writable f = disk.writable f := by
  rw [saveToFiles_content L inv disk c f h hc, saveToFiles_writable,
    saveCategoryToFile_of_nil L inv c f disk (getProductsByCategory_eq_nil inv c hnone)]
  exact ⟨rfl, rfl⟩

/-- Witness for C11: a store with one Food product leaves an existing Electronics file as it
is. -/
theorem C11_empty_category_file_untouched_witness :
    (saveToFiles Micro [Food "F1".toList "Milk".toList 1250000 20 "01/01/2030".toList true]
        duplicateDisk).content "electronics_inventory.csv".toList
      = duplicateDisk.content "electronics_inventory.csv".toList ∧
    (saveToFiles Micro [Food "F1".toList "Milk".toList 1250000 20 "01/01/2030".toList true]
        duplicateDisk).writable "electronics_inventory.csv".toList
      = duplicateDisk.writable "electronics_inventory.csv".toList :=
  C11_empty_category_file_untouched Micro
    [Food "F1".toList "Milk".toList 1250000 20 "01/01/2030".toList true] duplicateDisk
    "Electronics".toList "electronics_inventory.csv".toList
    "product_id,name,price,quantity,brand,warranty_months".toList (by decide) (by decide)

/-- C12 fails on the code: the header of a file is the one the first product of the category
writes, and a category update leaves the subclass as it is. After adding the Electronic `E1`
and updating its category to `Food`, the store holds a product of category Food, and
`saveToFiles` writes the Food file with the Electronics header, not the Food header. -/
theorem C12_category_update_changes_header :
    (∃ p ∈ runOps [Op.add (Electronic "E1".toList "Phone".toList (599990000 : Int) 5
          "Acme".toList 12), Op.update "E1".toList (Update.category "Food".toList)],
      p.category = "Food".toList) ∧
    (saveToFiles Micro
        (runOps [Op.add (Electronic "E1".toList "Phone".toList 599990000 5 "Acme".toList 12),
          Op.update "E1".toList (Update.category "Food".toList)])
        emptyDisk).content "food_inventory.csv".toList
      = some ("product_id,name,price,quantity,brand,warranty_months\n".toList
          ++ "E1,Phone,599.990000,5,Acme,12\n".toList) ∧
    (saveToFiles Micro
        (runOps [Op.add (Electronic "E1".toList "Phone".toList 599990000 5 "Acme".toList 12),
          Op.update "E1".toList (Update.category "Food".toList)])
        emptyDisk).content "food_inventory.csv".toList
      ≠ some ("product_id,name,price,quantity,expiry_date,is_organic".toList ++ nl ::
          rowsText Micro
            (getProductsByCategory
              (runOps [Op.add (Electronic "E1".toList "Phone".toList 599990000 5 "Acme".toList 12),
                Op.update "E1".toList (Update.category "Food".toList)])
              "Food".toList)) := by
  decide

/-- C12, amended: for every store and every category of the three of which the store holds
a product: when the category's file can be opened, `saveToFiles` replaces its content by the
header that the first product of the category writes, followed by one line
`joinCsvRow (toCsvRow product)` per product of the category, in insertion order, and nothing
else. That header is the fixed header of the category whenever the first product carries the
category of its subclass, as every product does in a store reached from the empty store
through `addProduct` of products as their constructors build them, `removeProduct` and
updates of name, price or quantity. -/
theorem C12_saved_file_is_header_then_rows {D : Type} (L : NumLib D) (inv : Inventory D)
    (disk : Disk) (c f h : Str) (hc : (c, f, h) ∈ categoryFiles)
    (hne : ∃ p ∈ inv, p.category = c) (hw : disk.writable f = true) :
    ∃ first others, getProductsByCategory inv c = first :: others ∧
      (saveToFiles L inv disk).content f
        = some (getCsvHeader first ++ nl :: rowsText L (first :: others)) ∧
      (first.category = first.variant.category → getCsvHeader first = h) ∧
      (∀ ops : List (Op D), inv = runOps ops → (∀ op ∈ ops, op.KeepsCategory) →
        getCsvHeader first = h) := by
  cases hps : getProductsByCategory inv c with
  | nil =>
    obtain ⟨p, hp, hpc⟩ := hne
    have : p ∈ getProductsByCategory inv c := by
      rw [getProductsByCategory_eq_filter, List.mem_filter]
      exact ⟨hp, by simpa using hpc⟩
    rw [hps] at this
    exact absurd this (List.not_mem_nil p)
  | cons first others =>
    have hfirst : first ∈ getProductsByCategory inv c := by rw [hps]; simp
    rw [getProductsByCategory_eq_filter, List.mem_filter] at hfirst
    have hcat : first.category = c := by simpa using hfirst.2
    have hhead : first.category = first.variant.category → getCsvHeader first = h :=
      fun hown => getCsvHeader_of_category first c f h hc (hown.symm.trans hcat)
    refine ⟨first, others, rfl, ?_, hhead, ?_⟩
    · rw [saveToFiles_content L _ disk c f h hc,
        saveCategoryToFile_content_self L _ c f disk first others hps hw, fileText_eq]
    · intro ops hinv hops
      subst hinv
      exact hhead (foldl_run_keeps_category ops []
        (fun p hp => absurd hp (List.not_mem_nil p)) hops first hfirst.1)

/-- Witness for C12: the store of two Food products and an Electronic one; the Food file is
written on a disk with no file. -/
theorem C12_saved_file_is_header_then_rows_witness :
    ∃ first others,
      getProductsByCategory
          [Food "F1".toList "Milk".toList (1250000 : Int) 20 "01/01/2030".toList true,
            Electronic "E1".toList "Phone".toList 599990000 5 "Acme".toList 12,
            Food "F2".toList "Tea, green".toList 3000000 7 "02/02/2031".toList false]
          "Food".toList = first :: others ∧
      (saveToFiles Micro
          [Food "F1".toList "Milk".toList (1250000 : Int) 20 "01/01/2030".toList true,
            Electronic "E1".toList "Phone".toList 599990000 5 "Acme".toList 12,
            Food "F2".toList "Tea, green".toList 3000000 7 "02/02/2031".toList false]
          emptyDisk).content "food_inventory.csv".toList
        = some (getCsvHeader first ++ nl :: rowsText Micro (first :: others)) ∧
      (first.category = first.variant.category →
        getCsvHeader first = "product_id,name,price,quantity,expiry_date,is_organic".toList) ∧
      (∀ ops : List (Op Int),
        [Food "F1".toList "Milk".toList (1250000 : Int) 20 "01/01/2030".toList true,
          Electronic "E1".toList "Phone".toList 599990000 5 "Acme".toList 12,
          Food "F2".toList "Tea, green".toList 3000000 7 "02/02/2031".toList false]
          = runOps ops →
        (∀ op ∈ ops, op.KeepsCategory) →
        getCsvHeader first = "product_id,name,price,quantity,expiry_date,is_organic".toList) :=
  C12_saved_file_is_header_then_rows Micro _ emptyDisk "Food".toList "food_inventory.csv".toList
    "product_id,name,price,quantity,expiry_date,is_organic".toList (by decide) (by decide) rfl

/-- C13: `searchByName` selects exactly the products whose name contains the term as a
contiguous run of characters when letter case is ignored on both: some run of the name is
the term, character by character, up to the case of the letters `A` to `Z` (`tolower` in
the C locale folds these and leaves every other character, accented letters included, as it
is). The products come each as often as they are in the store and in insertion order, and
every product is selected when the term is empty. On the store `iPhone 15`, `Whole MILK`,
`USB-C Cable`: `PHONE` finds the first, `milk` the second, `c c` the third, `E` all three,
`phones` none. -/
theorem C13_searchByName_substring_ignoring_case {D : Type} (s : Inventory D) (term : Str) :
    searchByName s term
      = s.filter (fun p => decide (find (p.name.map tolower) (term.map tolower) ≠ none)) ∧
    (∀ name needle : Str, find name needle ≠ none ↔ ∃ a b, a ++ needle ++ b = name) ∧
    (∀ p, p ∈ searchByName s term ↔
      p ∈ s ∧ ∃ a b, a ++ term.map tolower ++ b = p.name.map tolower) ∧
    (searchByName s term).Sublist s ∧
    searchByName s [] = s ∧
    searchByName s (term.map tolower) = searchByName s term ∧
    (∀ p, p ∈ searchByName s term ↔
      p ∈ s ∧ ∃ a w b, p.name = a ++ w ++ b ∧ List.Forall₂ sameLetter w term) ∧
    (∀ i, i < 26 → tolower (Char.ofNat (65 + i)) = Char.ofNat (97 + i)) ∧
    (∀ c : Char, ¬ (65 ≤ c.toNat ∧ c.toNat ≤ 90) → tolower c = c) ∧
    (searchByName namedStore "PHONE".toList).map (fun p => p.productId) = ["E1".toList] ∧
    (searchByName namedStore "milk".toList).map (fun p => p.productId) = ["F1".toList] ∧
    (searchByName namedStore "c c".toList).map (fun p => p.productId) = ["E2".toList] ∧
    (searchByName namedStore "E".toList).map (fun p => p.productId)
      = ["E1".toList, "F1".toList, "E2".toList] ∧
    searchByName namedStore "phones".toList = [] := by
  have hfilter : ∀ t : Str, searchByName s t
      = s.filter (fun p => decide (find (p.name.map tolower) (t.map tolower) ≠ none)) := by
    intro t
    simp only [searchByName, foldl_searchByName, List.nil_append]
  have hfind : ∀ name needle : Str, find name needle ≠ none ↔ ∃ a b, a ++ needle ++ b = name :=
    fun name needle => findFrom_ne_none name needle 0
  have hmem : ∀ p, p ∈ searchByName s term ↔
      p ∈ s ∧ ∃ a b, a ++ term.map tolower ++ b = p.name.map tolower := by
    intro p
    rw [hfilter, List.mem_filter, decide_eq_true_eq, hfind]
  refine ⟨hfilter term, hfind, hmem, ?_, ?_, ?_, ?_, by decide, tolower_other,
    by decide, by decide, by decide, by decide, by decide⟩
  · rw [hfilter]
    exact List.filter_sublist s
  · rw [hfilter, List.filter_eq_self]
    intro p _
    rw [decide_eq_true_eq, hfind]
    exact ⟨[], p.name.map tolower, by simp⟩
  · rw [hfilter, hfilter]
    have : (term.map tolower).map tolower = term.map tolower := by
      rw [List.map_map]
      exact List.map_congr_left (fun c _ => tolower_idem c)
    rw [this]
  · intro p
    rw [hmem p, infix_tolower_iff]

/-- C14: `getAvailableCategories` returns every category string carried by some product of
the store exactly once and no other string, ordered by the position of the first product
that carries each. -/
theorem C14_getAvailableCategories_first_seen {D : Type} (s : Inventory D) :
    (getAvailableCategories s).Nodup ∧
    (∀ c, c ∈ getAvailableCategories s ↔ ∃ p ∈ s, p.category = c) ∧
    (getAvailableCategories s).Pairwise
      (fun a b => firstIndex a (s.map (fun p => p.category))
        < firstIndex b (s.map (fun p => p.category))) := by
  obtain ⟨h1, h2, h3⟩ := getAvailableCategories_spec s
  refine ⟨h1, ?_, h3⟩
  intro c
  rw [h2 c, List.mem_map]

/-- C15: for every line and every category string the decoding in `loadCategoryFromFile` is
total and never reads a token that is not there: no outcome is a fault, and a line with
fewer than 4 fields is skipped before any token is read. Every line therefore appends
exactly one product or leaves the store unchanged, and no file content aborts a load. -/
theorem C15_decoding_total_and_in_bounds {D : Type} (L : NumLib D) (category line : Str) :
    decodeRow L category line ≠ .fault ∧
    (∀ tokens : List Str, decodeTokens L category tokens ≠ .fault) ∧
    ((parseCsvLine line).length < 4 → decodeRow L category line = .skipped) ∧
    (∀ (isFirstLine : Bool) (inv : Inventory D),
      loadLines L category [line] isFirstLine inv = some inv ∨
      ∃ p, loadLines L category [line] isFirstLine inv = some (inv ++ [p])) ∧
    (∀ (disk : Disk) (filename : Str) (inv : Inventory D),
      ∃ extra, loadCategoryFromFile L disk filename category inv = some (inv ++ extra)) ∧
    (∀ disk : Disk, ∃ loaded, loadFromFiles L disk = some loaded) := by
  refine ⟨decodeTokens_ne_fault L category _, decodeTokens_ne_fault L category, ?_, ?_,
    fun disk filename inv => loadCategoryFromFile_total L disk filename category inv,
    fun disk => ⟨_, loadFromFiles_eq L disk⟩⟩
  · intro h
    simp only [decodeRow, decodeTokens, h, if_true]
  · intro isFirstLine inv
    rw [loadLines_eq]
    by_cases hl : line = []
    · left
      simp [dataLines, hl, productsOf]
    · cases isFirstLine with
      | true =>
        left
        simp [dataLines, hl, productsOf]
      | false =>
        simp only [dataLines, hl, if_false, Bool.false_eq_true, productsOf]
        cases decodeRow L category line with
        | loaded product => exact Or.inr ⟨product, rfl⟩
        | skipped => exact Or.inl (by simp)
        | caught => exact Or.inl (by simp)
        | fault => exact Or.inl (by simp)

/-- C16: a removal is not always persisted. For the store holding only the Electronic `E1`
and the files written by saving it, `removeProduct`, `saveToFiles` and `loadFromFiles` give
a store that holds `E1` again. In general, when no product of a category is left after a
removal, the category's file is not rewritten, and every product decoded from a row of it
is in the store loaded afterwards. -/
theorem C16_removal_not_always_persisted :
    (∃ (inv : Inventory Int) (disk : Disk) (id : Str),
      (∃ p ∈ inv, p.productId = id) ∧ (∀ p ∈ removeProduct inv id, p.productId ≠ id) ∧
      ∃ loaded, loadFromFiles Micro (saveToFiles Micro (removeProduct inv id) disk) = some loaded ∧
        ∃ p ∈ loaded, p.productId = id) ∧
    (∀ (D : Type) (L : NumLib D) (inv : Inventory D) (disk : Disk) (id c f h text row : Str)
      (p : Product D),
      (c, f, h) ∈ categoryFiles → (∀ q ∈ removeProduct inv id, q.category ≠ c) →
      disk.content f = some text → row ∈ dataLines (getlines text []) true →
      decodeRow L c row = .loaded p →
      (saveToFiles L (removeProduct inv id) disk).content f = some text ∧
      ∃ loaded, loadFromFiles L (saveToFiles L (removeProduct inv id) disk) = some loaded ∧
        p ∈ loaded) := by
  constructor
  · refine ⟨[Electronic "E1".toList "Phone".toList 599990000 5 "Acme".toList 12],
      saveToFiles Micro [Electronic "E1".toList "Phone".toList 599990000 5 "Acme".toList 12]
        emptyDisk, "E1".toList, by decide, by decide,
      [Electronic "E1".toList "Phone".toList 599990000 5 "Acme".toList 12], by decide, by decide⟩
  · intro D L inv disk id c f h text row p hc hlast hfile hrow hdec
    have hkeep : (saveToFiles L (removeProduct inv id) disk).content f = some text := by
      rw [saveToFiles_content L _ disk c f h hc,
        saveCategoryToFile_of_nil L _ c f disk (getProductsByCategory_eq_nil _ c hlast), hfile]
    refine ⟨hkeep, mem_loadFromFiles L _ c f h p hc ?_⟩
    simp only [fileProducts, hkeep]
    exact mem_productsOf L c row _ p hrow hdec

/-- C17 fails on the code as stated: the claim asks nothing of the files but that they do not
exist. When a file cannot be opened for writing, `saveCategoryToFile` reports it and returns
(ims.cpp 289-292): the store holding the Electronic `E1` meets every condition of the claim
on a disk without files, yet after `saveToFiles` and `loadFromFiles` the store is empty. -/
theorem C17_unwritable_file_loses_products :
    (∀ p ∈ [Electronic "E1".toList "Phone".toList (599990000 : Int) 5 "Acme".toList 12],
      p.CleanText) ∧
    (∀ c f h, (c, f, h) ∈ categoryFiles → lockedDisk.content f = none) ∧
    loadFromFiles Micro
      (saveToFiles Micro [Electronic "E1".toList "Phone".toList 599990000 5 "Acme".toList 12]
        lockedDisk) = some [] ∧
    (getProductsByCategory
        [Electronic "E1".toList "Phone".toList (599990000 : Int) 5 "Acme".toList 12]
        "Electronics".toList).map (fun p => p.productId) = ["E1".toList] := by
  refine ⟨?_, fun _ _ _ _ => rfl, by decide, by decide⟩
  intro p hp
  rw [List.mem_singleton] at hp
  subst hp
  exact ⟨rfl, by decide, by decide, by decide⟩

/-- C17, amended: for every store whose products all carry the category of their subclass,
whose ids hold no comma, double quote or newline and whose other text fields hold no
newline, on a disk where no category file exists and where the file of every category the
store holds a product of can be opened for writing, the product ids after `saveToFiles`
and `loadFromFiles` are the ids of the Electronics products, then those of the Food
products, then those of the Medicine products, each group in insertion order. -/
theorem C17_save_reload_groups_by_category {D : Type} (L : NumLib D) (inv : Inventory D)
    (disk : Disk) (hclean : ∀ p ∈ inv, p.CleanText) (hlib : ∀ p ∈ inv, p.LibraryOk L)
    (hnofile : ∀ c f h, (c, f, h) ∈ categoryFiles → disk.content f = none)
    (hw : ∀ c f h, (c, f, h) ∈ categoryFiles → (∃ p ∈ inv, p.category = c) →
      disk.writable f = true) :
    ∃ loaded, loadFromFiles L (saveToFiles L inv disk) = some loaded ∧
      loaded.map (fun p => p.productId)
        = (getProductsByCategory inv "Electronics".toList).map (fun p => p.productId)
          ++ (getProductsByCategory inv "Food".toList).map (fun p => p.productId)
          ++ (getProductsByCategory inv "Medicine".toList).map (fun p => p.productId) := by
  have he : ("Electronics".toList, "electronics_inventory.csv".toList,
      "product_id,name,price,quantity,brand,warranty_months".toList) ∈ categoryFiles := by
    decide
  have hf : ("Food".toList, "food_inventory.csv".toList,
      "product_id,name,price,quantity,expiry_date,is_organic".toList) ∈ categoryFiles := by
    decide
  have hm : ("Medicine".toList, "medicine_inventory.csv".toList,
      "product_id,name,price,quantity,manufacturer,expiry_date,prescription_required".toList)
      ∈ categoryFiles := by
    decide
  refine ⟨_, loadFromFiles_eq L _, ?_⟩
  rw [List.map_append, List.map_append,
    saved_fileProducts_ids L inv disk _ _ _ he hclean hlib (hnofile _ _ _ he) (hw _ _ _ he),
    saved_fileProducts_ids L inv disk _ _ _ hf hclean hlib (hnofile _ _ _ hf) (hw _ _ _ hf),
    saved_fileProducts_ids L inv disk _ _ _ hm hclean hlib (hnofile _ _ _ hm) (hw _ _ _ hm)]

/-- Witness for C17: a Food, an Electronic, a Medicine and a second Electronic product come
back as the two Electronic ones, the Food one and the Medicine one; the order of the ids is
not the one of the store. -/
theorem C17_save_reload_groups_by_category_witness :
    (∃ loaded, loadFromFiles Micro (saveToFiles Micro mixedStore emptyDisk) = some loaded ∧
      loaded.map (fun p => p.productId)
        = (getProductsByCategory mixedStore "Electronics".toList).map (fun p => p.productId)
          ++ (getProductsByCategory mixedStore "Food".toList).map (fun p => p.productId)
          ++ (getProductsByCategory mixedStore "Medicine".toList).map (fun p => p.productId)) ∧
    (loadFromFiles Micro (saveToFiles Micro mixedStore emptyDisk)).map
        (fun loaded => loaded.map (fun p => p.productId))
      = some ["E1".toList, "E2".toList, "F1".toList, "M1".toList] ∧
    mixedStore.map (fun p => p.productId)
      = ["F1".toList, "E1".toList, "M1".toList, "E2".toList] :=
  ⟨C17_save_reload_groups_by_category Micro mixedStore emptyDisk
      (by
        intro p hp
        simp only [mixedStore, List.mem_cons, List.mem_singleton, List.not_mem_nil,
          or_false] at hp
        rcases hp with rfl | rfl | rfl | rfl
        · exact ⟨rfl, by decide, by decide, by decide⟩
        · exact ⟨rfl, by decide, by decide, by decide⟩
        · exact ⟨rfl, by decide, by decide, by decide⟩
        · exact ⟨rfl, by decide, by decide, by decide⟩)
      (by
        intro p hp
        simp only [mixedStore, List.mem_cons, List.mem_singleton, List.not_mem_nil,
          or_false] at hp
        rcases hp with rfl | rfl | rfl | rfl
        · exact ⟨⟨⟨by decide, by decide⟩, trivial⟩, by decide, by decide⟩
        · exact ⟨⟨⟨by decide, by decide⟩, ⟨by decide, by decide⟩⟩, by decide, by decide⟩
        · exact ⟨⟨⟨by decide, by decide⟩, trivial⟩, by decide, by decide⟩
        · exact ⟨⟨⟨by decide, by decide⟩, ⟨by decide, by decide⟩⟩, by decide, by decide⟩)
      (fun _ _ _ _ => rfl) (fun _ _ _ _ _ => rfl),
    by decide, by decide⟩

end IMS
